import Mathlib

/-!
Verification development for the bn-loader profile synchronization and diff
engine.  The definitions below are a shallow embedding of `src/sync.rs`,
`src/diff.rs` and `src/plugins.rs`:

* The filesystem is modelled as a tree (`FsNode`); a configuration directory
  is a list of named entries (`Dir`).  A possibly missing directory is an
  `Option Dir`.  Structural I/O failures (reading a missing directory,
  creating a directory over an existing file, copying over a mismatched node
  kind) are represented by `Except`/`Option String` error results, mirroring
  the `Result<_, String>` plumbing of the Rust code.  Environmental failures
  of `fs::remove_dir_all` during backup pruning, which the Rust code
  tolerates, are injected through an oracle `rmOk : String → Bool`.
* `SystemTime::now()` is passed in as an explicit Unix-seconds timestamp.
* `fs::copy`/`copy_dir_recursive` perform a deep copy of a pure tree, which
  produces a value equal to the source subtree; the embedding therefore
  writes the source node directly (remove-then-recreate replace semantics).
* JSON values (`serde_json::Value`) are modelled by `JValue`; object maps
  (`serde_json::Map`, a `BTreeMap`) by key-sorted association lists, and
  numbers by integers.  The unordered `HashSet` iteration in
  `diff_json_objects` is modelled by an iteration-order oracle
  `ord : List String → List String` applied to the canonical element list of
  each set; a run of the program corresponds to some `ord` with
  `∀ l, (ord l).Perm l`.  A Rust panic (the byte-slice in `format_value`)
  is modelled by an `Option` result.
-/

set_option linter.unusedVariables false
set_option linter.unnecessarySimpa false

namespace BnLoader

/-! ### Filesystem model -/

inductive FsNode where
  | file (content : String)
  | dir (entries : List (String × FsNode))

abbrev Dir := List (String × FsNode)

/-- Look up the immediate child of a directory by name. -/
def lookupEntry (d : Dir) (name : String) : Option FsNode :=
  match d with
  | [] => none
  | (n, v) :: rest => if n = name then some v else lookupEntry rest name

/-- Create or overwrite the immediate child `name` of a directory. -/
def setEntry (d : Dir) (name : String) (v : FsNode) : Dir :=
  match d with
  | [] => [(name, v)]
  | (n, w) :: rest => if n = name then (name, v) :: rest else (n, w) :: setEntry rest name v

/-- Remove the immediate child `name` of a directory (`fs::remove_dir_all`). -/
def removeEntry (d : Dir) (name : String) : Dir :=
  match d with
  | [] => []
  | (n, w) :: rest => if n = name then rest else (n, w) :: removeEntry rest name

/-- `target_dir.join(item).exists()` when the target directory may be missing. -/
def targetLookup (t : Option Dir) (name : String) : Option FsNode :=
  match t with
  | none => none
  | some d => lookupEntry d name

/-- `const BACKUP_PREFIX: &str = ".bn-loader-backup-"` from src/sync.rs. -/
def backupPrefixStr : String := ".bn-loader-backup-"

/-- The snapshot directory name `format!("{BACKUP_PREFIX}{timestamp}")`. -/
def backupName (ts : Nat) : String := backupPrefixStr ++ toString ts

/-- `str::strip_prefix`. -/
def stripPre (p s : String) : Option String :=
  if p.data.isPrefixOf s.data then some (String.mk (s.data.drop p.data.length)) else none

/-- Value of a big-endian decimal digit string. -/
def digitsToNat (cs : List Char) : Nat :=
  cs.foldl (fun acc c => acc * 10 + (c.toNat - 48)) 0

/-- `str::parse::<u64>()`: an optional leading `+`, then one or more decimal
digits, rejecting values that overflow 64 bits. -/
def parseU64 (s : String) : Option Nat :=
  let cs := if s.data.head? = some '+' then s.data.tail else s.data
  if cs ≠ [] ∧ cs.all (fun c => c.isDigit) then
    let n := digitsToNat cs
    if n < 2 ^ 64 then some n else none
  else none

/-- The timestamp extraction of `cleanup_old_backups`: an entry is a backup
snapshot iff it is a directory whose name is `BACKUP_PREFIX` followed by a
string parsing as `u64`. -/
def backupEntryKey (e : String × FsNode) : Option (String × Nat) :=
  match e.2 with
  | .file _ => none
  | .dir _ =>
    match stripPre backupPrefixStr e.1 with
    | none => none
    | some rest =>
      match parseU64 rest with
      | none => none
      | some t => some (e.1, t)

/-- The backup snapshots among the immediate children of a directory, in
directory order, with their embedded timestamps. -/
def backupsIn (d : Dir) : List (String × Nat) := d.filterMap backupEntryKey

/-- Stable insertion into a list sorted descending by timestamp. -/
def insertDesc (x : String × Nat) : List (String × Nat) → List (String × Nat)
  | [] => [x]
  | y :: ys => if y.2 > x.2 then y :: insertDesc x ys else x :: y :: ys

/-- `backups.sort_by(|a, b| b.1.cmp(&a.1))`: stable sort, newest first. -/
def sortDesc : List (String × Nat) → List (String × Nat)
  | [] => []
  | x :: xs => insertDesc x (sortDesc xs)

/-- One item copy of `create_backup`: copy the target's `item` into the
snapshot directory `nm` (deep copy = the subtree itself). -/
def copyIntoBackup (acc : Dir) (nm it : String) : Dir :=
  match lookupEntry acc it, lookupEntry acc nm with
  | some node, some (.dir bes) => setEntry acc nm (.dir (setEntry bes it node))
  | _, _ => acc

/-- Embedding of `create_backup` (src/sync.rs).  Returns the new state of the
target configuration directory and either an error or the created snapshot
name (`None` when no planned item exists in the target). -/
def createBackup (ts : Nat) (target : Option Dir) (items : List String) :
    Option Dir × Except String (Option String) :=
  let itemsToBackup := items.filter (fun it => (targetLookup target it).isSome)
  if itemsToBackup.isEmpty then
    (target, Except.ok none)
  else
    let d := target.getD []
    let nm := backupName ts
    match lookupEntry d nm with
    | some (.file _) => (some d, Except.error "Failed to create backup directory")
    | some (.dir _) =>
      (some (itemsToBackup.foldl (fun acc it => copyIntoBackup acc nm it) d),
        Except.ok (some nm))
    | none =>
      (some (itemsToBackup.foldl (fun acc it => copyIntoBackup acc nm it) (setEntry d nm (.dir []))),
        Except.ok (some nm))

/-- The removal loop of `cleanup_old_backups`: attempt to delete each
snapshot beyond the retention limit; a failed `fs::remove_dir_all` is
recorded as a warning and the loop continues. -/
def removeLoop (rmOk : String → Bool) (st : Dir × List String) :
    List (String × Nat) → Dir × List String
  | [] => st
  | b :: rest =>
    if rmOk b.1 then removeLoop rmOk (removeEntry st.1 b.1, st.2) rest
    else removeLoop rmOk
      (st.1, st.2 ++ ["Warning: Failed to remove old backup " ++ b.1]) rest

/-- Embedding of `cleanup_old_backups` (src/sync.rs).  Returns the new state,
the warnings printed for failed removals, and an error when the directory
listing itself fails.  `rmOk` says whether `fs::remove_dir_all` succeeds for
a given snapshot name. -/
def cleanupOldBackups (target : Option Dir) (retention : Nat) (rmOk : String → Bool) :
    Option Dir × List String × Option String :=
  match target with
  | none => (none, [], some "Failed to read directory for backup cleanup")
  | some d =>
    let final := removeLoop rmOk (d, []) ((sortDesc (backupsIn d)).drop retention)
    (some final.1, final.2, none)

/-- The copy loop of `sync_to_target`: copy each item from the source
configuration directory into the target, aborting at the first failure. -/
def copyPhase (srcDir : Dir) (target : Option Dir) : List String → Option Dir × Option String
  | [] => (target, none)
  | it :: rest =>
    match lookupEntry srcDir it with
    | some (.dir es) =>
      match targetLookup target it with
      | some (.file _) => (target, some "Failed to remove existing directory")
      | _ => copyPhase srcDir (some (setEntry (target.getD []) it (.dir es))) rest
    | some (.file c) =>
      match targetLookup target it with
      | some (.dir _) => (target, some ("Failed to copy " ++ it))
      | _ => copyPhase srcDir (some (setEntry (target.getD []) it (.file c))) rest
    | none => (target, some ("Failed to copy " ++ it))

/-- Embedding of `sync_to_target` (src/sync.rs): backup, then prune when
retention is positive, then copy; any step's error aborts the rest. -/
def syncToTarget (srcDir : Dir) (target : Option Dir) (items : List String)
    (backupRetention : Nat) (ts : Nat) (rmOk : String → Bool) : Option Dir × Option String :=
  match createBackup ts target items with
  | (t1, Except.error e) => (t1, some e)
  | (t1, Except.ok _) =>
    if backupRetention > 0 then
      match cleanupOldBackups t1 backupRetention rmOk with
      | (t2, _, some e) => (t2, some e)
      | (t2, _, none) => copyPhase srcDir t2 items
    else
      copyPhase srcDir t1 items

/-- Embedding of the target loop of `run_sync` (src/sync.rs, lines 109-117):
`for (name, target) in &targets { sync_to_target(...)? }`.  The `?` operator
returns at the first error; the world state of the remaining targets is
returned unchanged. -/
def runSyncTargets (srcDir : Dir) (items : List String) (retention ts : Nat)
    (rmOk : String → Bool) :
    List (String × Option Dir) → List (String × Option Dir) × Option String
  | [] => ([], none)
  | (nm, d) :: rest =>
    match syncToTarget srcDir d items retention ts rmOk with
    | (d2, none) =>
      let r := runSyncTargets srcDir items retention ts rmOk rest
      ((nm, d2) :: r.1, r.2)
    | (d2, some e) => ((nm, d2) :: rest, some e)

/-- N successive syncs to the same target, one per timestamp. -/
def syncN (srcDir : Dir) (items : List String) (retention : Nat) (rmOk : String → Bool) :
    Option Dir → List Nat → Option Dir
  | st, [] => st
  | st, t :: rest =>
    syncN srcDir items retention rmOk (syncToTarget srcDir st items retention t rmOk).1 rest

/-! ### JSON tree-diff model (src/diff.rs) -/

inductive DiffKind where
  | added
  | removed
  | changed
deriving DecidableEq

structure DiffEntry where
  kind : DiffKind
  text : String
deriving DecidableEq

inductive JValue where
  | null
  | bool (b : Bool)
  | num (n : Int)
  | str (s : String)
  | arr (items : List JValue)
  | obj (fields : List (String × JValue))

mutual

/-- `PartialEq` on `serde_json::Value` (objects are key-sorted `BTreeMap`s,
compared pairwise in order). -/
def jeqB : JValue → JValue → Bool
  | .null, .null => true
  | .bool a, .bool b => a == b
  | .num a, .num b => a == b
  | .str a, .str b => a == b
  | .arr a, .arr b => jeqListB a b
  | .obj a, .obj b => jeqFieldsB a b
  | _, _ => false

/-- `PartialEq` on `Vec<Value>`. -/
def jeqListB : List JValue → List JValue → Bool
  | [], [] => true
  | x :: xs, y :: ys => jeqB x y && jeqListB xs ys
  | _, _ => false

/-- `PartialEq` on the ordered entry sequence of `Map<String, Value>`. -/
def jeqFieldsB : List (String × JValue) → List (String × JValue) → Bool
  | [], [] => true
  | (k1, w1) :: xs, (k2, w2) :: ys => k1 == k2 && jeqB w1 w2 && jeqFieldsB xs ys
  | _, _ => false

end

/-- `const MAX_VALUE_DISPLAY_LEN: usize = 30`. -/
def MAX_VALUE_DISPLAY_LEN : Nat := 30

/-- `const VALUE_PREVIEW_LEN: usize = 27`. -/
def VALUE_PREVIEW_LEN : Nat := 27

/-- The UTF-8 byte length of a character list (`str::len` counts bytes). -/
def utf8Len (cs : List Char) : Nat := (cs.map Char.utf8Size).sum

/-- The Rust byte slice `&s[..n]`: the characters making up the first `n`
bytes, or `none` (a panic) when byte `n` is not a character boundary or is
out of range. -/
def byteTake : List Char → Nat → Option (List Char)
  | _, 0 => some []
  | [], _ + 1 => none
  | c :: cs, n + 1 =>
    if c.utf8Size ≤ n + 1 then (byteTake cs (n + 1 - c.utf8Size)).map (fun l => c :: l)
    else none

/-- `char::escape_debug` as used by `format!("{s:?}")`, for the escapes the
standard library produces on the characters exercised here: quote, backslash,
common control characters, other C0 controls and DEL as `\u{...}`. -/
def escapeDebugChar (c : Char) : String :=
  if c = '"' then "\\\""
  else if c = '\\' then "\\\\"
  else if c = '\n' then "\\n"
  else if c = '\t' then "\\t"
  else if c = '\r' then "\\r"
  else if c = Char.ofNat 0 then "\\0"
  else if c.toNat < 32 ∨ c.toNat = 127 then
    "\\u\x7b" ++ String.mk (Nat.toDigits 16 c.toNat) ++ "\x7d"
  else String.singleton c

/-- `format!("{s:?}")`: the Debug rendering of a string. -/
def rustDebugStr (s : String) : String :=
  "\"" ++ String.join (s.data.map escapeDebugChar) ++ "\""

/-- Embedding of `format_value` (src/diff.rs).  `none` is the byte-slice
panic on a non-boundary truncation point. -/
def format_value (v : JValue) : Option String :=
  match v with
  | .str s =>
    if utf8Len s.data > MAX_VALUE_DISPLAY_LEN then
      match byteTake s.data VALUE_PREVIEW_LEN with
      | some pre => some ("\"" ++ String.mk pre ++ "...\"")
      | none => none
    else some (rustDebugStr s)
  | .arr a => some ("[" ++ toString a.length ++ " items]")
  | .obj o => some ("\x7b" ++ toString o.length ++ " keys\x7d")
  | .null => some "null"
  | .bool b => some (if b then "true" else "false")
  | .num n => some (toString n)

/-- `serde_json::Map` indexing `o[key]` for keys known to be present;
defaults to `null` on the unreachable missing case. -/
def objLookup (o : List (String × JValue)) (k : String) : JValue :=
  match o with
  | [] => .null
  | (k2, v) :: rest => if k2 = k then v else objLookup rest k

/-- The dotted path construction of `diff_json_objects`. -/
def pathJoin (pre k : String) : String := if pre = "" then k else pre ++ "." ++ k

theorem sizeOf_objLookup (o : List (String × JValue)) (k : String) :
    sizeOf (objLookup o k) < 1 + sizeOf o := by
  induction o with
  | nil => simp [objLookup]
  | cons e rest ih =>
    obtain ⟨k2, v⟩ := e
    simp only [objLookup]
    split
    · simp; omega
    · simp at ih ⊢; omega

/-- Embedding of `diff_json_objects` (src/diff.rs).  `ord` is the iteration
order of the `HashSet` difference/intersection iterators, applied to the
canonical (first-operand-ordered) element list of each set; `none` models a
panic raised while rendering a changed value. -/
def diff_json_objects (ord : List String → List String) (v1 v2 : JValue) (pre : String) :
    Option (List DiffEntry) :=
  match v1, v2 with
  | .obj o1, .obj o2 =>
    let keys1 := o1.map Prod.fst
    let keys2 := o2.map Prod.fst
    let removedKeys := ord (keys1.filter (fun k => !(keys2.contains k)))
    let addedKeys := ord (keys2.filter (fun k => !(keys1.contains k)))
    let commonKeys := ord (keys1.filter (fun k => keys2.contains k))
    match commonKeys.mapM
        (fun k => diff_json_objects ord (objLookup o1 k) (objLookup o2 k) (pathJoin pre k)) with
    | none => none
    | some subs =>
      some (removedKeys.map (fun k => ⟨.removed, "- " ++ pathJoin pre k ++ " (only in first)"⟩)
        ++ addedKeys.map (fun k => ⟨.added, "+ " ++ pathJoin pre k ++ " (only in second)"⟩)
        ++ subs.flatten)
  | _, _ =>
    if jeqB v1 v2 then some []
    else
      match format_value v1, format_value v2 with
      | some s1, some s2 => some [⟨.changed, "~ " ++ pre ++ " : " ++ s1 ++ " -> " ++ s2⟩]
      | _, _ => none
termination_by sizeOf v1
decreasing_by
  have := sizeOf_objLookup o1 k
  simp only [JValue.obj.sizeOf_spec]
  omega

/-! ### Plugin inventory model (src/plugins.rs) -/

inductive PluginSource where
  | manual
  | official
  | community
deriving DecidableEq

structure RepoPlugin where
  name : Option String
  version : Option String
  author : Option String
  path : Option String
  plugin_status : Nat
deriving DecidableEq

structure Repository where
  plugins : List RepoPlugin
deriving DecidableEq

structure PluginInfo where
  dir_name : String
  name : Option String
  version : Option String
  author : Option String
  source : PluginSource
deriving DecidableEq

/-- `const INSTALLED_BIT: u32 = 2`. -/
def INSTALLED_BIT : Nat := 2

/-- The `PluginInfo` built for an included repository plugin record
(`dir_name: plugin.path.clone().unwrap_or_default()`). -/
def toInfo (source : PluginSource) (p : RepoPlugin) : PluginInfo :=
  { dir_name := p.path.getD ""
    name := p.name
    version := p.version
    author := p.author
    source := source }

/-- The repository loop of `read_repo_plugins`, carrying the enumeration
index (`idx == 0` tags Official, later repositories Community). -/
def readRepoLoop (idx : Nat) : List Repository → List PluginInfo
  | [] => []
  | repo :: rest =>
    let source := if idx = 0 then PluginSource.official else PluginSource.community
    repo.plugins.foldl
      (fun acc p => if p.plugin_status &&& INSTALLED_BIT ≠ 0 then acc ++ [toInfo source p] else acc)
      []
    ++ readRepoLoop (idx + 1) rest

/-- Embedding of `read_repo_plugins` (src/plugins.rs) applied to the parsed
manifest contents. -/
def read_repo_plugins (repos : List Repository) : List PluginInfo :=
  readRepoLoop 0 repos

/-! ### Directory-operation lemmas -/

theorem lookupEntry_eq_none (d : Dir) (n : String) :
    lookupEntry d n = none ↔ n ∉ d.map Prod.fst := by
  induction d with
  | nil => simp [lookupEntry]
  | cons e rest ih =>
    obtain ⟨m, v⟩ := e
    simp only [lookupEntry, List.map_cons, List.mem_cons]
    by_cases h : m = n
    · subst h
      simp
    · rw [if_neg h, ih]
      constructor
      · rintro hn (h1 | h2)
        · exact h h1.symm
        · exact hn h2
      · intro hn h2
        exact hn (Or.inr h2)

theorem lookupEntry_isSome (d : Dir) (n : String) :
    (lookupEntry d n).isSome = true ↔ n ∈ d.map Prod.fst := by
  rw [Option.isSome_iff_ne_none, ne_eq, lookupEntry_eq_none, not_not]

theorem lookupEntry_setEntry_self (d : Dir) (n : String) (v : FsNode) :
    lookupEntry (setEntry d n v) n = some v := by
  induction d with
  | nil => simp [setEntry, lookupEntry]
  | cons e rest ih =>
    obtain ⟨m, w⟩ := e
    by_cases h : m = n <;> simp [setEntry, lookupEntry, h, ih]

theorem lookupEntry_setEntry_ne (d : Dir) (n m : String) (v : FsNode) (h : m ≠ n) :
    lookupEntry (setEntry d n v) m = lookupEntry d m := by
  induction d with
  | nil => simp [setEntry, lookupEntry, (Ne.symm h : ¬ n = m)]
  | cons e rest ih =>
    obtain ⟨m2, w⟩ := e
    by_cases h2 : m2 = n
    · subst h2
      simp [setEntry, lookupEntry, (Ne.symm h : ¬ m2 = m)]
    · simp only [setEntry, if_neg h2, lookupEntry]
      by_cases h3 : m2 = m
      · rw [if_pos h3, if_pos h3]
      · rw [if_neg h3, if_neg h3, ih]

theorem setEntry_of_not_mem (d : Dir) (n : String) (v : FsNode)
    (h : n ∉ d.map Prod.fst) : setEntry d n v = d ++ [(n, v)] := by
  induction d with
  | nil => simp [setEntry]
  | cons e rest ih =>
    obtain ⟨m, w⟩ := e
    simp only [List.map_cons, List.mem_cons] at h
    push_neg at h
    simp [setEntry, Ne.symm h.1, ih h.2]

theorem map_fst_setEntry_mem (d : Dir) (n : String) (v : FsNode)
    (h : n ∈ d.map Prod.fst) : (setEntry d n v).map Prod.fst = d.map Prod.fst := by
  induction d with
  | nil => simp at h
  | cons e rest ih =>
    obtain ⟨m, w⟩ := e
    by_cases h2 : m = n
    · simp [setEntry, h2]
    · have h' : n = m ∨ n ∈ rest.map Prod.fst := by
        simpa only [List.map_cons, List.mem_cons] using h
      have hn : n ∈ rest.map Prod.fst := by
        rcases h' with h3 | h3
        · exact absurd h3.symm h2
        · exact h3
      simp [setEntry, h2, ih hn]

theorem map_fst_setEntry_not_mem (d : Dir) (n : String) (v : FsNode)
    (h : n ∉ d.map Prod.fst) : (setEntry d n v).map Prod.fst = d.map Prod.fst ++ [n] := by
  rw [setEntry_of_not_mem d n v h]
  simp

theorem removeEntry_sublist (d : Dir) (n : String) : (removeEntry d n).Sublist d := by
  induction d with
  | nil => simp [removeEntry]
  | cons e rest ih =>
    obtain ⟨m, w⟩ := e
    by_cases h : m = n
    · simpa [removeEntry, h] using List.sublist_cons_self _ _
    · simpa [removeEntry, h] using ih

theorem removeEntry_of_not_mem (d : Dir) (n : String) (h : n ∉ d.map Prod.fst) :
    removeEntry d n = d := by
  induction d with
  | nil => simp [removeEntry]
  | cons e rest ih =>
    obtain ⟨m, w⟩ := e
    simp only [List.map_cons, List.mem_cons] at h
    push_neg at h
    simp [removeEntry, Ne.symm h.1, ih h.2]

theorem mem_removeEntry (d : Dir) (n : String) (e : String × FsNode)
    (hd : (d.map Prod.fst).Nodup) (he : e ∈ d) (hne : e.1 ≠ n) : e ∈ removeEntry d n := by
  induction d with
  | nil => simp at he
  | cons f rest ih =>
    obtain ⟨m, w⟩ := f
    simp only [List.map_cons, List.nodup_cons] at hd
    rcases List.mem_cons.1 he with h | h
    · subst h
      simp [removeEntry, hne]
    · by_cases h2 : m = n
      · simpa [removeEntry, h2] using h
      · simpa [removeEntry, h2] using Or.inr (ih hd.2 h)

theorem map_fst_removeEntry_sublist (d : Dir) (n : String) :
    ((removeEntry d n).map Prod.fst).Sublist (d.map Prod.fst) :=
  (removeEntry_sublist d n).map Prod.fst

theorem nodup_removeEntry (d : Dir) (n : String) (h : (d.map Prod.fst).Nodup) :
    ((removeEntry d n).map Prod.fst).Nodup :=
  (map_fst_removeEntry_sublist d n).nodup h

theorem lookupEntry_removeEntry_ne (d : Dir) (n m : String) (h : m ≠ n) :
    lookupEntry (removeEntry d n) m = lookupEntry d m := by
  induction d with
  | nil => simp [removeEntry]
  | cons e rest ih =>
    obtain ⟨m2, w⟩ := e
    by_cases h2 : m2 = n
    · subst h2
      simp [removeEntry, lookupEntry, (Ne.symm h : ¬ m2 = m)]
    · simp only [removeEntry, if_neg h2, lookupEntry]
      by_cases h3 : m2 = m
      · rw [if_pos h3, if_pos h3]
      · rw [if_neg h3, if_neg h3, ih]

/-! ### Decimal representation round-trip -/

/-- The digit list of `Nat.toDigits 10`, written as a recursion on the value. -/
def specDigits (n : Nat) : List Char :=
  if h : n < 10 then [Nat.digitChar n]
  else specDigits (n / 10) ++ [Nat.digitChar (n % 10)]
decreasing_by exact Nat.div_lt_self (by omega) (by norm_num)

theorem toDigitsCore_eq (fuel n : Nat) (acc : List Char) (h : n < fuel) :
    Nat.toDigitsCore 10 fuel n acc = specDigits n ++ acc := by
  induction fuel generalizing n acc with
  | zero => omega
  | succ f ih =>
    by_cases h10 : n < 10
    · have hz : n / 10 = 0 := Nat.div_eq_of_lt h10
      have hspec : specDigits n = [Nat.digitChar n] := by
        conv_lhs => rw [specDigits]
        rw [dif_pos h10]
      rw [Nat.toDigitsCore]
      simp only [hz, if_pos rfl]
      rw [hspec, Nat.mod_eq_of_lt h10]
      simp
    · have hne : ¬ n / 10 = 0 := by
        intro hz
        have h9 : n < 10 := by
          have hle : 10 * (n / 10) ≤ n := Nat.mul_div_le n 10
          have hmod : n % 10 < 10 := Nat.mod_lt _ (by norm_num)
          have := Nat.div_add_mod n 10
          omega
        exact h10 h9
      have hlt : n / 10 < f := by
        have h1 : n / 10 < n := Nat.div_lt_self (by omega) (by norm_num)
        omega
      have hspec : specDigits n = specDigits (n / 10) ++ [Nat.digitChar (n % 10)] := by
        conv_lhs => rw [specDigits]
        rw [dif_neg h10]
      rw [Nat.toDigitsCore]
      simp only [if_neg hne]
      rw [ih _ _ hlt, hspec]
      simp

theorem toString_nat_eq_specDigits (n : Nat) : toString n = String.mk (specDigits n) := by
  show Nat.repr n = _
  rw [Nat.repr, Nat.toDigits, toDigitsCore_eq _ _ _ (by omega)]
  simp [List.asString]

theorem digitChar_isDigit (k : Nat) (h : k < 10) : (Nat.digitChar k).isDigit = true := by
  interval_cases k <;> decide

theorem digitChar_toNat (k : Nat) (h : k < 10) : (Nat.digitChar k).toNat - 48 = k := by
  interval_cases k <;> decide

theorem specDigits_ne_nil (n : Nat) : specDigits n ≠ [] := by
  rw [specDigits]
  split <;> simp

theorem specDigits_all_digit (n : Nat) : (specDigits n).all (fun c => c.isDigit) = true := by
  induction n using Nat.strong_induction_on with
  | _ n ih =>
    rw [specDigits]
    split
    · simpa using digitChar_isDigit n (by assumption)
    · rename_i h10
      have hlt : n / 10 < n := Nat.div_lt_self (by omega) (by norm_num)
      simpa using ⟨by simpa using ih _ hlt, digitChar_isDigit _ (Nat.mod_lt _ (by norm_num))⟩

theorem digitsToNat_append_last (l : List Char) (c : Char) :
    digitsToNat (l ++ [c]) = digitsToNat l * 10 + (c.toNat - 48) := by
  simp [digitsToNat, List.foldl_append]

theorem digitsToNat_specDigits (n : Nat) : digitsToNat (specDigits n) = n := by
  induction n using Nat.strong_induction_on with
  | _ n ih =>
    rw [specDigits]
    split
    · rename_i h
      simp [digitsToNat, digitChar_toNat n h]
    · rename_i h10
      have hlt : n / 10 < n := Nat.div_lt_self (by omega) (by norm_num)
      rw [digitsToNat_append_last, ih _ hlt, digitChar_toNat _ (Nat.mod_lt _ (by norm_num))]
      omega

theorem specDigits_head_ne_plus (n : Nat) : ¬ (specDigits n).head? = some '+' := by
  cases hs : specDigits n with
  | nil => simp
  | cons c rest =>
    intro hplus
    simp only [List.head?_cons, Option.some.injEq] at hplus
    subst hplus
    have hall := specDigits_all_digit n
    rw [hs] at hall
    simp only [List.all_cons, Bool.and_eq_true] at hall
    exact absurd hall.1 (by decide)

theorem parseU64_toString (n : Nat) (h : n < 2 ^ 64) : parseU64 (toString n) = some n := by
  have hdata : (toString n).data = specDigits n := by
    rw [toString_nat_eq_specDigits]
  simp only [parseU64, hdata, if_neg (specDigits_head_ne_plus n)]
  rw [if_pos ⟨specDigits_ne_nil n, specDigits_all_digit n⟩]
  rw [digitsToNat_specDigits, if_pos h]

theorem toString_nat_injective (a b : Nat) (ha : a < 2 ^ 64) (hb : b < 2 ^ 64)
    (h : toString a = toString b) : a = b := by
  have h1 := parseU64_toString a ha
  have h2 := parseU64_toString b hb
  rw [h] at h1
  rw [h1] at h2
  exact Option.some_injective _ h2

/-! ### Backup-name lemmas -/

theorem stripPre_append (p s : String) : stripPre p (p ++ s) = some s := by
  rw [stripPre, if_pos]
  · rw [String.data_append, List.drop_left]
  · rw [String.data_append]
    exact List.isPrefixOf_iff_prefix.2 (List.prefix_append _ _)

theorem stripPre_backupName (t : Nat) :
    stripPre backupPrefixStr (backupName t) = some (toString t) :=
  stripPre_append _ _

theorem backupEntryKey_canonical (t : Nat) (es : List (String × FsNode)) (h : t < 2 ^ 64) :
    backupEntryKey (backupName t, FsNode.dir es) = some (backupName t, t) := by
  simp only [backupEntryKey, stripPre_backupName, parseU64_toString t h]

theorem backupName_injective (a b : Nat) (ha : a < 2 ^ 64) (hb : b < 2 ^ 64)
    (h : backupName a = backupName b) : a = b := by
  apply toString_nat_injective a b ha hb
  have hd := congrArg String.data h
  simp only [backupName, String.data_append] at hd
  exact congrArg String.mk (List.append_cancel_left hd)

theorem backupName_has_pre (t : Nat) :
    backupPrefixStr.data.isPrefixOf (backupName t).data = true := by
  rw [backupName, String.data_append]
  exact List.isPrefixOf_iff_prefix.2 (List.prefix_append _ _)

theorem backupEntryKey_eq_none_of_no_pre (e : String × FsNode)
    (h : ¬ backupPrefixStr.data.isPrefixOf e.1.data = true) : backupEntryKey e = none := by
  obtain ⟨nm, node⟩ := e
  cases node with
  | file c => rfl
  | dir es =>
    simp only [backupEntryKey, stripPre]
    rw [if_neg (by simpa using h)]

theorem backupEntryKey_mk_dir (nm : String) (es es2 : List (String × FsNode)) :
    backupEntryKey (nm, FsNode.dir es) = backupEntryKey (nm, FsNode.dir es2) := rfl

/-! ### Sorting lemmas -/

theorem insertDesc_perm (x : String × Nat) (l : List (String × Nat)) :
    (insertDesc x l).Perm (x :: l) := by
  induction l with
  | nil => simp [insertDesc]
  | cons y ys ih =>
    rw [insertDesc]
    split
    · exact ((ih.cons y).trans (List.Perm.swap x y ys)).symm.symm
    · exact List.Perm.refl _

theorem sortDesc_perm (l : List (String × Nat)) : (sortDesc l).Perm l := by
  induction l with
  | nil => simp [sortDesc]
  | cons x xs ih =>
    exact (insertDesc_perm x (sortDesc xs)).trans (ih.cons x)

theorem insertDesc_of_all_gt (x : String × Nat) (l : List (String × Nat))
    (h : ∀ y ∈ l, x.2 < y.2) : insertDesc x l = l ++ [x] := by
  induction l with
  | nil => rfl
  | cons y ys ih =>
    rw [insertDesc, if_pos (h y (List.mem_cons_self _ _)),
      ih (fun z hz => h z (List.mem_cons_of_mem _ hz))]
    rfl

theorem sortDesc_of_ascending (l : List (String × Nat))
    (h : l.Pairwise (fun a b => a.2 < b.2)) : sortDesc l = l.reverse := by
  induction l with
  | nil => rfl
  | cons x xs ih =>
    rw [List.pairwise_cons] at h
    rw [sortDesc, ih h.2, insertDesc_of_all_gt]
    · simp
    · intro y hy
      exact h.1 y (by simpa using hy)

theorem insertDesc_sorted (x : String × Nat) (l : List (String × Nat))
    (h : l.Pairwise (fun a b => b.2 ≤ a.2)) :
    (insertDesc x l).Pairwise (fun a b => b.2 ≤ a.2) := by
  induction l with
  | nil => simp [insertDesc]
  | cons y ys ih =>
    rw [List.pairwise_cons] at h
    rw [insertDesc]
    split
    · rename_i hgt
      rw [List.pairwise_cons]
      refine ⟨fun z hz => ?_, ih h.2⟩
      have := (insertDesc_perm x ys).mem_iff.1 hz
      rcases List.mem_cons.1 this with h3 | h3
      · subst h3
        omega
      · exact h.1 z h3
    · rename_i hle
      rw [List.pairwise_cons]
      refine ⟨fun z hz => ?_, List.pairwise_cons.2 h⟩
      rcases List.mem_cons.1 hz with h3 | h3
      · subst h3
        omega
      · have := h.1 z h3
        omega

theorem sortDesc_sorted (l : List (String × Nat)) :
    (sortDesc l).Pairwise (fun a b => b.2 ≤ a.2) := by
  induction l with
  | nil => simp [sortDesc]
  | cons x xs ih => exact insertDesc_sorted x (sortDesc xs) ih

/-! ### Append lemmas for directory operations -/

theorem lookupEntry_append_of_some (d1 d2 : Dir) (n : String) (v : FsNode)
    (h : lookupEntry d1 n = some v) : lookupEntry (d1 ++ d2) n = some v := by
  induction d1 with
  | nil => simp [lookupEntry] at h
  | cons e rest ih =>
    obtain ⟨m, w⟩ := e
    simp only [lookupEntry] at h ⊢
    by_cases h2 : m = n
    · simpa [h2] using h
    · rw [if_neg h2] at h ⊢
      exact ih h

theorem lookupEntry_append_of_none (d1 d2 : Dir) (n : String)
    (h : lookupEntry d1 n = none) : lookupEntry (d1 ++ d2) n = lookupEntry d2 n := by
  induction d1 with
  | nil => simp
  | cons e rest ih =>
    obtain ⟨m, w⟩ := e
    simp only [lookupEntry] at h ⊢
    by_cases h2 : m = n
    · simp [h2] at h
    · rw [if_neg h2] at h ⊢
      exact ih h

theorem setEntry_append_right (d1 d2 : Dir) (n : String) (v : FsNode)
    (h : n ∉ d1.map Prod.fst) : setEntry (d1 ++ d2) n v = d1 ++ setEntry d2 n v := by
  induction d1 with
  | nil => simp
  | cons e rest ih =>
    obtain ⟨m, w⟩ := e
    simp only [List.map_cons, List.mem_cons] at h
    push_neg at h
    simp [setEntry, Ne.symm h.1, ih h.2]

theorem backupEntryKey_name (e : String × FsNode) (b : String × Nat)
    (h : backupEntryKey e = some b) : b.1 = e.1 := by
  obtain ⟨nm, node⟩ := e
  cases node with
  | file c => simp [backupEntryKey] at h
  | dir es =>
    rcases hs : stripPre backupPrefixStr nm with _ | rest
    · simp [backupEntryKey, hs] at h
    · rcases hp : parseU64 rest with _ | t
      · simp [backupEntryKey, hs, hp] at h
      · simp only [backupEntryKey, hs, hp, Option.some.injEq] at h
        rw [← h]

theorem backupsIn_append (d1 d2 : Dir) :
    backupsIn (d1 ++ d2) = backupsIn d1 ++ backupsIn d2 :=
  List.filterMap_append _ _ _

theorem backupsIn_map_fst_sublist (d : Dir) :
    ((backupsIn d).map Prod.fst).Sublist (d.map Prod.fst) := by
  induction d with
  | nil => simp [backupsIn]
  | cons e rest ih =>
    rcases hk : backupEntryKey e with _ | b
    · simp only [backupsIn, List.filterMap_cons, hk]
      exact ih.cons _
    · have hname := backupEntryKey_name e b hk
      simp only [backupsIn, List.filterMap_cons, hk, List.map_cons, hname]
      exact List.Sublist.cons₂ _ ih

/-! ### `create_backup` characterization -/

theorem createBackup_none (ts : Nat) (target : Option Dir) (items : List String)
    (h : items.filter (fun it => (targetLookup target it).isSome) = []) :
    createBackup ts target items = (target, Except.ok none) := by
  simp [createBackup, h]

theorem copyIntoBackup_foldl (d : Dir) (nm : String) (ex : List String) :
    ∀ bes : List (String × FsNode),
    nm ∉ d.map Prod.fst →
    (∀ it ∈ ex, (lookupEntry d it).isSome) →
    (∀ it ∈ ex, it ≠ nm) →
    ex.Nodup →
    (∀ it ∈ ex, it ∉ bes.map Prod.fst) →
    ex.foldl (fun acc it => copyIntoBackup acc nm it) (d ++ [(nm, FsNode.dir bes)]) =
      d ++ [(nm, FsNode.dir (bes ++
        ex.map (fun it => (it, (lookupEntry d it).getD (FsNode.file "")))))] := by
  induction ex with
  | nil =>
    intro bes hnm hsome hne hnodup hbes
    simp
  | cons it rest ih =>
    intro bes hnm hsome hne hnodup hbes
    have hit : (lookupEntry d it).isSome := hsome it (List.mem_cons_self _ _)
    obtain ⟨node, hnode⟩ := Option.isSome_iff_exists.1 hit
    have hitnm : it ≠ nm := hne it (List.mem_cons_self _ _)
    have hlook_it : lookupEntry (d ++ [(nm, FsNode.dir bes)]) it = some node :=
      lookupEntry_append_of_some _ _ _ _ hnode
    have hlook_nm : lookupEntry (d ++ [(nm, FsNode.dir bes)]) nm = some (FsNode.dir bes) := by
      rw [lookupEntry_append_of_none _ _ _ ((lookupEntry_eq_none d nm).2 hnm)]
      simp [lookupEntry]
    have hstep : copyIntoBackup (d ++ [(nm, FsNode.dir bes)]) nm it =
        d ++ [(nm, FsNode.dir (bes ++ [(it, node)]))] := by
      simp only [copyIntoBackup, hlook_it, hlook_nm]
      rw [setEntry_append_right _ _ _ _ hnm,
        setEntry_of_not_mem bes it node (hbes it (List.mem_cons_self _ _))]
      simp [setEntry]
    rw [List.foldl_cons, hstep,
      ih (bes ++ [(it, node)]) hnm
        (fun x hx => hsome x (List.mem_cons_of_mem _ hx))
        (fun x hx => hne x (List.mem_cons_of_mem _ hx))
        (List.Nodup.of_cons hnodup)
        (fun x hx => by
          simp only [List.map_append, List.mem_append, List.map_cons, List.map_nil,
            List.mem_singleton]
          rintro (h1 | h1)
          · exact hbes x (List.mem_cons_of_mem _ hx) h1
          · rw [h1] at hx
            exact (List.nodup_cons.1 hnodup).1 hx)]
    simp [hnode, List.append_assoc]

theorem createBackup_spec (ts : Nat) (d : Dir) (items : List String)
    (hfresh : lookupEntry d (backupName ts) = none)
    (hnodup : items.Nodup)
    (hne : items.filter (fun it => (lookupEntry d it).isSome) ≠ []) :
    createBackup ts (some d) items =
      (some (d ++ [(backupName ts,
        FsNode.dir ((items.filter (fun it => (lookupEntry d it).isSome)).map
          (fun it => (it, (lookupEntry d it).getD (FsNode.file "")))))]),
       Except.ok (some (backupName ts))) := by
  have htl0 : ∀ it, targetLookup (some d) it = lookupEntry d it := fun _ => rfl
  have hnm_not : backupName ts ∉ d.map Prod.fst := (lookupEntry_eq_none d _).1 hfresh
  have hfilter : items.filter (fun it => (targetLookup (some d) it).isSome) =
      items.filter (fun it => (lookupEntry d it).isSome) := rfl
  simp only [createBackup, hfilter]
  rw [if_neg (by simpa [List.isEmpty_iff] using hne)]
  simp only [Option.getD_some, hfresh]
  rw [setEntry_of_not_mem d _ _ hnm_not]
  rw [copyIntoBackup_foldl d (backupName ts) _ [] hnm_not
    (fun it hit => (List.mem_filter.1 hit).2)
    (fun it hit => by
      intro hh
      have := (List.mem_filter.1 hit).2
      rw [hh, hfresh] at this
      simp at this)
    (hnodup.filter _)
    (fun it hit => by simp)]
  simp

/-! ### `cleanup_old_backups` characterization -/

theorem nodup_entry_name_inj (d : Dir) (hd : (d.map Prod.fst).Nodup)
    (e1 e2 : String × FsNode) (h1 : e1 ∈ d) (h2 : e2 ∈ d) (h : e1.1 = e2.1) : e1 = e2 := by
  induction d with
  | nil => simp at h1
  | cons f rest ih =>
    simp only [List.map_cons, List.nodup_cons] at hd
    rcases List.mem_cons.1 h1 with ha | ha <;> rcases List.mem_cons.1 h2 with hb | hb
    · rw [ha, hb]
    · exfalso
      apply hd.1
      have hm : e2.1 ∈ rest.map Prod.fst := List.mem_map_of_mem Prod.fst hb
      rw [← h, ha] at hm
      exact hm
    · exfalso
      apply hd.1
      have hm : e1.1 ∈ rest.map Prod.fst := List.mem_map_of_mem Prod.fst ha
      rw [h, hb] at hm
      exact hm
    · exact ih hd.2 ha hb

theorem backupsIn_name_mem (d : Dir) (b : String × Nat) (h : b ∈ backupsIn d) :
    b.1 ∈ d.map Prod.fst := by
  obtain ⟨e, he, hk⟩ := List.mem_filterMap.1 h
  rw [backupEntryKey_name e b hk]
  exact List.mem_map_of_mem Prod.fst he

theorem removeLoop_sublist (rmOk : String → Bool) (rm : List (String × Nat)) :
    ∀ st : Dir × List String, ((removeLoop rmOk st rm).1).Sublist st.1 := by
  induction rm with
  | nil =>
    intro st
    simp [removeLoop]
  | cons b rest ih =>
    intro st
    rw [removeLoop]
    split
    · exact (ih _).trans (removeEntry_sublist _ _)
    · exact ih _

theorem removeLoop_preserves (rmOk : String → Bool) (rm : List (String × Nat)) :
    ∀ st : Dir × List String, (st.1.map Prod.fst).Nodup →
    ∀ e ∈ st.1, e.1 ∉ rm.map Prod.fst → e ∈ (removeLoop rmOk st rm).1 := by
  induction rm with
  | nil =>
    intro st hd e he hn
    simpa [removeLoop] using he
  | cons b rest ih =>
    intro st hd e he hn
    simp only [List.map_cons, List.mem_cons] at hn
    push_neg at hn
    rw [removeLoop]
    split
    · exact ih (removeEntry st.1 b.1, st.2) ((map_fst_removeEntry_sublist _ _).nodup hd)
        e (mem_removeEntry _ _ _ hd he hn.1) hn.2
    · exact ih (st.1, st.2 ++ ["Warning: Failed to remove old backup " ++ b.1]) hd e he hn.2

theorem removeLoop_lookup (rmOk : String → Bool) (rm : List (String × Nat)) :
    ∀ st : Dir × List String, ∀ n : String, (∀ b ∈ rm, b.1 ≠ n) →
    lookupEntry (removeLoop rmOk st rm).1 n = lookupEntry st.1 n := by
  induction rm with
  | nil =>
    intro st n h
    simp [removeLoop]
  | cons b rest ih =>
    intro st n h
    rw [removeLoop]
    split
    · rw [ih _ _ (fun b2 hb2 => h b2 (List.mem_cons_of_mem _ hb2))]
      exact lookupEntry_removeEntry_ne _ _ _ (Ne.symm (h b (List.mem_cons_self _ _)))
    · exact ih _ _ (fun b2 hb2 => h b2 (List.mem_cons_of_mem _ hb2))

theorem backupsIn_removeEntry (d : Dir) (nm : String) (hd : (d.map Prod.fst).Nodup) :
    backupsIn (removeEntry d nm) = (backupsIn d).filter (fun b => b.1 ≠ nm) := by
  induction d with
  | nil => simp [backupsIn, removeEntry]
  | cons e rest ih =>
    simp only [List.map_cons, List.nodup_cons] at hd
    by_cases h : e.1 = nm
    · have hrest : ∀ b ∈ backupsIn rest, ¬ b.1 = nm := by
        intro b hb hbn
        apply hd.1
        have hm : b.1 ∈ rest.map Prod.fst := backupsIn_name_mem rest b hb
        rw [hbn, ← h] at hm
        exact hm
      have hre : removeEntry (e :: rest) nm = rest := by
        obtain ⟨m, w⟩ := e
        simp only [removeEntry]
        rw [if_pos h]
      rw [hre]
      rcases hk : backupEntryKey e with _ | b
      · simp only [backupsIn, List.filterMap_cons, hk]
        exact (List.filter_eq_self.2 (fun b hb => by simpa using hrest b hb)).symm
      · simp only [backupsIn, List.filterMap_cons, hk, List.filter_cons]
        have hb1 : ¬ b.1 ≠ nm := by
          simp [backupEntryKey_name e b hk, h]
        rw [if_neg (by simpa using hb1)]
        exact (List.filter_eq_self.2 (fun b hb => by simpa using hrest b hb)).symm
    · have hre : removeEntry (e :: rest) nm = e :: removeEntry rest nm := by
        obtain ⟨m, w⟩ := e
        simp only [removeEntry]
        rw [if_neg h]
      rw [hre]
      rcases hk : backupEntryKey e with _ | b
      · simp only [backupsIn, List.filterMap_cons, hk]
        exact ih hd.2
      · simp only [backupsIn, List.filterMap_cons, hk, List.filter_cons]
        have hb1 : b.1 ≠ nm := by
          rw [backupEntryKey_name e b hk]
          exact h
        rw [if_pos (by simpa using hb1)]
        have ih2 := ih hd.2
        simp only [backupsIn] at ih2
        rw [ih2]

theorem removeLoop_backupsIn (rm : List (String × Nat)) :
    ∀ st : Dir × List String, (st.1.map Prod.fst).Nodup →
    backupsIn (removeLoop (fun _ => true) st rm).1 =
      (backupsIn st.1).filter (fun b => b.1 ∉ rm.map Prod.fst) := by
  induction rm with
  | nil =>
    intro st hd
    rw [removeLoop]
    exact (List.filter_eq_self.2 (fun b hb => by simp)).symm
  | cons b rest ih =>
    intro st hd
    rw [removeLoop, if_pos rfl]
    rw [ih _ ((map_fst_removeEntry_sublist _ _).nodup hd)]
    rw [backupsIn_removeEntry _ _ hd, List.filter_filter]
    apply List.filter_congr
    intro x hx
    simp only [List.map_cons, List.mem_cons, decide_not]
    by_cases h1 : x.1 = b.1 <;> by_cases h2 : x.1 ∈ rest.map Prod.fst <;>
      simp [h1, h2]

/-! ### `copyPhase` characterization -/

/-- `Path::is_dir` on a filesystem node. -/
def isDirNode : FsNode → Bool
  | .file _ => false
  | .dir _ => true

/-- The target's pre-existing node (if any) has the same kind as the source
node (if any); this is what makes remove-then-recreate directory copies and
plain file copies succeed. -/
def kindCompat (tgt src : Option FsNode) : Prop :=
  ∀ a b, tgt = some a → src = some b → isDirNode a = isDirNode b

theorem mem_setEntry (d : Dir) (n : String) (v : FsNode) (e : String × FsNode)
    (h : e ∈ setEntry d n v) : e ∈ d ∨ e = (n, v) := by
  induction d with
  | nil => simpa [setEntry] using h
  | cons f rest ih =>
    obtain ⟨m, w⟩ := f
    by_cases h2 : m = n
    · rw [setEntry, if_pos h2] at h
      rcases List.mem_cons.1 h with h3 | h3
      · exact Or.inr h3
      · exact Or.inl (List.mem_cons_of_mem _ h3)
    · rw [setEntry, if_neg h2] at h
      rcases List.mem_cons.1 h with h3 | h3
      · exact Or.inl (h3 ▸ List.mem_cons_self _ _)
      · rcases ih h3 with h4 | h4
        · exact Or.inl (List.mem_cons_of_mem _ h4)
        · exact Or.inr h4

theorem nodup_setEntry (d : Dir) (n : String) (v : FsNode)
    (h : (d.map Prod.fst).Nodup) : ((setEntry d n v).map Prod.fst).Nodup := by
  by_cases h2 : n ∈ d.map Prod.fst
  · rw [map_fst_setEntry_mem d n v h2]
    exact h
  · rw [map_fst_setEntry_not_mem d n v h2]
    refine List.Nodup.append h (List.nodup_singleton n) ?_
    intro a ha hb
    rw [List.mem_singleton] at hb
    subst hb
    exact h2 ha

theorem backupsIn_setEntry_no_pre (d : Dir) (n : String) (v : FsNode)
    (h : ¬ backupPrefixStr.data.isPrefixOf n.data = true) :
    backupsIn (setEntry d n v) = backupsIn d := by
  induction d with
  | nil =>
    simp [setEntry, backupsIn, List.filterMap_cons,
      backupEntryKey_eq_none_of_no_pre (n, v) h]
  | cons e rest ih =>
    obtain ⟨m, w⟩ := e
    by_cases h2 : m = n
    · subst h2
      rw [setEntry, if_pos rfl]
      simp only [backupsIn, List.filterMap_cons]
      rw [backupEntryKey_eq_none_of_no_pre (m, v) h, backupEntryKey_eq_none_of_no_pre (m, w) h]
    · rw [setEntry, if_neg h2]
      have ih2 := ih
      simp only [backupsIn] at ih2 ⊢
      rcases hk : backupEntryKey (m, w) with _ | b
      · rw [List.filterMap_cons_none hk, List.filterMap_cons_none hk]
        exact ih2
      · rw [List.filterMap_cons_some hk, List.filterMap_cons_some hk, ih2]

theorem lookupEntry_append_single_ne (d : Dir) (nm n : String) (v : FsNode) (h : n ≠ nm) :
    lookupEntry (d ++ [(nm, v)]) n = lookupEntry d n := by
  rcases hl : lookupEntry d n with _ | w
  · rw [lookupEntry_append_of_none _ _ _ hl]
    simp [lookupEntry, Ne.symm h]
  · exact lookupEntry_append_of_some _ _ _ _ hl

theorem backupEntryKey_pre (e : String × FsNode) (b : String × Nat)
    (h : backupEntryKey e = some b) :
    backupPrefixStr.data.isPrefixOf b.1.data = true := by
  rw [backupEntryKey_name e b h]
  by_contra hc
  rw [backupEntryKey_eq_none_of_no_pre e hc] at h
  exact Option.noConfusion h

theorem copyPhase_spec (srcDir : Dir) (items : List String) :
    ∀ d : Dir,
    (∀ it ∈ items, (lookupEntry srcDir it).isSome) →
    (∀ it ∈ items, kindCompat (lookupEntry d it) (lookupEntry srcDir it)) →
    ∃ d2, copyPhase srcDir (some d) items = (some d2, none) ∧
      (∀ it ∈ items, lookupEntry d2 it = lookupEntry srcDir it) ∧
      (∀ n, n ∉ items → lookupEntry d2 n = lookupEntry d n) ∧
      (∀ e ∈ d2, e ∈ d ∨ e.1 ∈ items) ∧
      ((d.map Prod.fst).Nodup → (d2.map Prod.fst).Nodup) ∧
      ((∀ it2 ∈ items, ¬ backupPrefixStr.data.isPrefixOf it2.data = true) →
        backupsIn d2 = backupsIn d) := by
  induction items with
  | nil =>
    intro d hsrc hcompat
    exact ⟨d, rfl, by simp, fun n _ => rfl, fun e he => Or.inl he, fun h => h, fun _ => rfl⟩
  | cons it rest ih =>
    intro d hsrc hcompat
    obtain ⟨node, hnode⟩ := Option.isSome_iff_exists.1 (hsrc it (List.mem_cons_self _ _))
    have htl : targetLookup (some d) it = lookupEntry d it := rfl
    have hcompat_it := hcompat it (List.mem_cons_self _ _)
    have hstep : copyPhase srcDir (some d) (it :: rest) =
        copyPhase srcDir (some (setEntry d it node)) rest := by
      cases node with
      | dir es =>
        simp only [copyPhase, hnode, htl]
        rcases hl : lookupEntry d it with _ | w
        · rfl
        · cases w with
          | file c =>
            have := hcompat_it _ _ hl hnode
            simp [isDirNode] at this
          | dir es2 => rfl
      | file c =>
        simp only [copyPhase, hnode, htl]
        rcases hl : lookupEntry d it with _ | w
        · rfl
        · cases w with
          | file c2 => rfl
          | dir es2 =>
            have := hcompat_it _ _ hl hnode
            simp [isDirNode] at this
    have hset_it : lookupEntry (setEntry d it node) it = some node :=
      lookupEntry_setEntry_self d it node
    have hset_ne : ∀ n, n ≠ it → lookupEntry (setEntry d it node) n = lookupEntry d n :=
      fun n hn => lookupEntry_setEntry_ne d it n node hn
    obtain ⟨d2, hrun, hitems, hframe, hmem, hnd, hbk⟩ :=
      ih (setEntry d it node)
        (fun x hx => hsrc x (List.mem_cons_of_mem _ hx))
        (fun x hx => by
          by_cases hxy : x = it
          · subst hxy
            intro a b ha hb
            rw [hset_it] at ha
            rw [hnode] at hb
            cases ha
            cases hb
            rfl
          · rw [hset_ne x hxy]
            exact hcompat x (List.mem_cons_of_mem _ hx))
    refine ⟨d2, by rw [hstep, hrun], ?_, ?_, ?_, ?_, ?_⟩
    · intro x hx
      rcases List.mem_cons.1 hx with h1 | h1
      · subst h1
        by_cases hxr : x ∈ rest
        · exact hitems x hxr
        · rw [hframe x hxr, hset_it, hnode]
      · exact hitems x h1
    · intro n hn
      simp only [List.mem_cons] at hn
      push_neg at hn
      rw [hframe n hn.2, hset_ne n hn.1]
    · intro e he
      rcases hmem e he with h1 | h1
      · rcases mem_setEntry d it node e h1 with h2 | h2
        · exact Or.inl h2
        · exact Or.inr (by simp [h2])
      · exact Or.inr (List.mem_cons_of_mem _ h1)
    · intro h
      exact hnd (nodup_setEntry d it node h)
    · intro hp
      rw [hbk (fun x hx => hp x (List.mem_cons_of_mem _ hx)),
        backupsIn_setEntry_no_pre d it node (hp it (List.mem_cons_self _ _))]

theorem backupEntryKey_isSome_elim (e : String × FsNode) (b : String × Nat)
    (h : backupEntryKey e = some b) :
    ∃ es rest, e.2 = FsNode.dir es ∧ stripPre backupPrefixStr e.1 = some rest ∧
      parseU64 rest = some b.2 := by
  obtain ⟨nm, node⟩ := e
  cases node with
  | file c => simp [backupEntryKey] at h
  | dir es =>
    rcases hs : stripPre backupPrefixStr nm with _ | rest
    · simp [backupEntryKey, hs] at h
    · rcases hp : parseU64 rest with _ | t
      · simp [backupEntryKey, hs, hp] at h
      · have hcomp : backupEntryKey (nm, FsNode.dir es) = some (nm, t) := by
          simp only [backupEntryKey, hs, hp]
        rw [hcomp] at h
        have hb := Option.some_injective _ h
        refine ⟨es, rest, rfl, rfl, ?_⟩
        rw [hp, ← hb]

theorem lookupEntry_map_pair (f : String → FsNode) (ex : List String) (x : String)
    (hx : x ∈ ex) : lookupEntry (ex.map (fun it => (it, f it))) x = some (f x) := by
  induction ex with
  | nil => simp at hx
  | cons y ys ih =>
    by_cases h : y = x
    · subst h
      simp [lookupEntry]
    · rcases List.mem_cons.1 hx with h1 | h1
      · exact absurd h1.symm h
      · simpa [lookupEntry, h] using ih h1

/-- Claim C9: `create_backup` returns `None` and performs no filesystem
mutation when no planned item exists under the target directory; otherwise it
creates exactly one new snapshot directory named `BACKUP_PREFIX` followed by
the Unix-seconds timestamp, appended to the target directory, containing a
copy of every planned item that existed in the target and only those
items. -/
theorem c9_create_backup (ts : Nat) (target : Option Dir) (d : Dir) (items : List String)
    (hnodup : items.Nodup) :
    (items.filter (fun it => (targetLookup target it).isSome) = [] →
      createBackup ts target items = (target, Except.ok none)) ∧
    (lookupEntry d (backupName ts) = none →
      items.filter (fun it => (lookupEntry d it).isSome) ≠ [] →
      ∃ snap : Dir,
        createBackup ts (some d) items =
          (some (d ++ [(backupName ts, FsNode.dir snap)]), Except.ok (some (backupName ts))) ∧
        (∀ it ∈ items, ∀ v, lookupEntry d it = some v → lookupEntry snap it = some v) ∧
        (∀ e ∈ snap, e.1 ∈ items ∧ lookupEntry d e.1 = some e.2)) := by
  constructor
  · intro h
    exact createBackup_none ts target items h
  · intro hfresh hne
    refine ⟨(items.filter (fun it => (lookupEntry d it).isSome)).map
      (fun it => (it, (lookupEntry d it).getD (FsNode.file ""))), ?_, ?_, ?_⟩
    · exact createBackup_spec ts d items hfresh hnodup hne
    · intro it hit v hv
      have hmem : it ∈ items.filter (fun it => (lookupEntry d it).isSome) :=
        List.mem_filter.2 ⟨hit, by simp [hv]⟩
      have := lookupEntry_map_pair (fun it => (lookupEntry d it).getD (FsNode.file ""))
        _ it hmem
      rw [this]
      simp [hv]
    · intro e he
      obtain ⟨it, hit, heq⟩ := List.mem_map.1 he
      have hfil := List.mem_filter.1 hit
      obtain ⟨v, hv⟩ := Option.isSome_iff_exists.1 hfil.2
      refine ⟨?_, ?_⟩
      · rw [← heq]
        exact hfil.1
      · rw [← heq]
        simp only [hv]
        rfl

/-- Witness for C9: a concrete empty-target run returns `None` without
mutation. -/
theorem c9_create_backup_witness :
    createBackup 5 (some []) ["settings.json"] = (some [], Except.ok none) :=
  (c9_create_backup 5 (some []) [] ["settings.json"] (by decide)).1 (by rfl)

/-- Claim C10: backup pruning never fails once the directory listing
succeeds; it deletes only immediate children that are directories whose name
is the backup prefix followed by a string parsing as `u64`; every other
entry survives, and with retention at least 1 a snapshot carrying the
greatest timestamp always survives. -/
theorem c10_prune_frame (d : Dir) (k : Nat) (rmOk : String → Bool)
    (hd : (d.map Prod.fst).Nodup) :
    ∃ d2 w, cleanupOldBackups (some d) k rmOk = (some d2, w, none) ∧
      d2.Sublist d ∧
      (∀ e ∈ d, e ∉ d2 →
        ∃ es rest t, e.2 = FsNode.dir es ∧ stripPre backupPrefixStr e.1 = some rest ∧
          parseU64 rest = some t) ∧
      (1 ≤ k → backupsIn d ≠ [] →
        ∃ e ∈ d2, ∃ t, backupEntryKey e = some (e.1, t) ∧ ∀ b ∈ backupsIn d, b.2 ≤ t) := by
  refine ⟨(removeLoop rmOk (d, []) ((sortDesc (backupsIn d)).drop k)).1,
    (removeLoop rmOk (d, []) ((sortDesc (backupsIn d)).drop k)).2, rfl,
    removeLoop_sublist rmOk _ (d, []), ?_, ?_⟩
  · intro e he hne
    rcases hk : backupEntryKey e with _ | b
    · exfalso
      apply hne
      apply removeLoop_preserves rmOk _ (d, []) hd e he
      intro hmem
      obtain ⟨b2, hb2, hb2n⟩ := List.exists_of_mem_map hmem
      have hb2s : b2 ∈ sortDesc (backupsIn d) := (List.drop_sublist _ _).mem hb2
      have hb2d : b2 ∈ backupsIn d := (sortDesc_perm _).mem_iff.1 hb2s
      obtain ⟨e2, he2, hke2⟩ := List.mem_filterMap.1 hb2d
      have : e2 = e := by
        apply nodup_entry_name_inj d hd e2 e he2 he
        rw [← backupEntryKey_name e2 b2 hke2, hb2n]
      rw [this, hk] at hke2
      exact Option.noConfusion hke2
    · obtain ⟨es, rest, h1, h2, h3⟩ := backupEntryKey_isSome_elim e b hk
      exact ⟨es, rest, b.2, h1, h2, h3⟩
  · intro hk1 hbne
    rcases hsort : sortDesc (backupsIn d) with _ | ⟨b, rest⟩
    · exfalso
      apply hbne
      have := sortDesc_perm (backupsIn d)
      rw [hsort] at this
      exact this.symm.eq_nil
    · have hmax : ∀ y ∈ backupsIn d, y.2 ≤ b.2 := by
        intro y hy
        have hy2 : y ∈ sortDesc (backupsIn d) := (sortDesc_perm _).symm.mem_iff.1 hy
        rw [hsort] at hy2
        rcases List.mem_cons.1 hy2 with h1 | h1
        · rw [h1]
        · have hsorted := sortDesc_sorted (backupsIn d)
          rw [hsort] at hsorted
          exact (List.pairwise_cons.1 hsorted).1 y h1
      have hb_mem : b ∈ backupsIn d := by
        have : b ∈ sortDesc (backupsIn d) := by
          rw [hsort]
          exact List.mem_cons_self _ _
        exact (sortDesc_perm _).mem_iff.1 this
      obtain ⟨e, he, hke⟩ := List.mem_filterMap.1 hb_mem
      have hb_not : b.1 ∉ ((sortDesc (backupsIn d)).drop k).map Prod.fst := by
        intro hmem
        obtain ⟨b2, hb2, hb2n⟩ := List.exists_of_mem_map hmem
        have hb2r : b2 ∈ rest := by
          have : (sortDesc (backupsIn d)).drop k = rest.drop (k - 1) := by
            rw [hsort]
            obtain ⟨k2, rfl⟩ := Nat.exists_eq_add_of_le hk1
            rw [Nat.add_comm 1 k2]
            simp [List.drop_succ_cons]
          rw [this] at hb2
          exact (List.drop_sublist _ _).mem hb2
        have hnodup_names : ((sortDesc (backupsIn d)).map Prod.fst).Nodup :=
          (((sortDesc_perm (backupsIn d)).map Prod.fst).nodup_iff).2
            ((backupsIn_map_fst_sublist d).nodup hd)
        rw [hsort] at hnodup_names
        simp only [List.map_cons, List.nodup_cons] at hnodup_names
        exact hnodup_names.1 (hb2n ▸ List.mem_map_of_mem Prod.fst hb2r)
      have hsurv : e ∈ (removeLoop rmOk (d, []) ((sortDesc (backupsIn d)).drop k)).1 := by
        apply removeLoop_preserves rmOk _ (d, []) hd e he
        rw [backupEntryKey_name e b hke] at hb_not
        exact hb_not
      rw [hsort] at hsurv
      refine ⟨e, hsurv, b.2, ?_, hmax⟩
      rw [hke, ← backupEntryKey_name e b hke]

/-- Witness for C10: pruning a concrete directory holding a file, a plain
directory, and two snapshots with retention 1 removes exactly the older
snapshot. -/
theorem c10_prune_frame_witness :
    ∃ d2 w, cleanupOldBackups
        (some [("settings.json", FsNode.file "s"),
               (".bn-loader-backup-100", FsNode.dir []),
               ("plugins", FsNode.dir []),
               (".bn-loader-backup-200", FsNode.dir [])]) 1 (fun _ => true)
        = (some d2, w, none) ∧
      d2.Sublist [("settings.json", FsNode.file "s"),
               (".bn-loader-backup-100", FsNode.dir []),
               ("plugins", FsNode.dir []),
               (".bn-loader-backup-200", FsNode.dir [])] := by
  obtain ⟨d2, w, hrun, hsub, _, _⟩ := c10_prune_frame
    [("settings.json", FsNode.file "s"),
     (".bn-loader-backup-100", FsNode.dir []),
     ("plugins", FsNode.dir []),
     (".bn-loader-backup-200", FsNode.dir [])] 1 (fun _ => true) (by decide)
  exact ⟨d2, w, hrun, hsub⟩

/-- Counterexample to claim C1: with two targets, a backup failure on the
first target (`create_dir_all` over an existing file named like the snapshot)
makes the whole loop return the error; the second target is returned
unchanged even though syncing it alone would succeed and change its state.
The `?` in `run_sync`'s target loop propagates the first error. -/
theorem c1_counterexample :
    runSyncTargets [("settings.json", FsNode.file "new")] ["settings.json"] 1 100 (fun _ => true)
        [("a", some [("settings.json", FsNode.file "old"),
                     (".bn-loader-backup-100", FsNode.file "junk")]),
         ("b", some [])]
      = ([("a", some [("settings.json", FsNode.file "old"),
                      (".bn-loader-backup-100", FsNode.file "junk")]),
          ("b", some [])], some "Failed to create backup directory") ∧
    syncToTarget [("settings.json", FsNode.file "new")] (some []) ["settings.json"] 1 100
        (fun _ => true) = (some [("settings.json", FsNode.file "new")], none) ∧
    (some [("settings.json", FsNode.file "new")] : Option Dir) ≠ some [] := by
  refine ⟨rfl, rfl, ?_⟩
  simp

/-- Claim C1 (amended): a backup or copy failure while processing one target
aborts that target's remaining steps and the rest of the loop: targets
processed before the failing one keep their synced state, targets after it
are returned unprocessed, and the single error is propagated. -/
theorem c1_amended (srcDir : Dir) (items : List String) (k ts : Nat)
    (rmOk : String → Bool) (pre post : List (String × Option Dir))
    (nm : String) (d d2 : Option Dir) (e : String)
    (hpre : ∀ t ∈ pre, (syncToTarget srcDir t.2 items k ts rmOk).2 = none)
    (hfail : syncToTarget srcDir d items k ts rmOk = (d2, some e)) :
    runSyncTargets srcDir items k ts rmOk (pre ++ (nm, d) :: post) =
      (pre.map (fun t => (t.1, (syncToTarget srcDir t.2 items k ts rmOk).1))
        ++ (nm, d2) :: post, some e) := by
  induction pre with
  | nil =>
    simp only [List.nil_append, List.map_nil]
    rw [runSyncTargets, hfail]
  | cons t rest ih =>
    obtain ⟨tn, td⟩ := t
    have ht := hpre (tn, td) (List.mem_cons_self _ _)
    rcases hs : syncToTarget srcDir td items k ts rmOk with ⟨x, err⟩
    rw [hs] at ht
    simp only at ht
    subst ht
    rw [List.cons_append, runSyncTargets]
    simp only [hs]
    rw [ih (fun t2 ht2 => hpre t2 (List.mem_cons_of_mem _ ht2))]
    simp [hs]

/-- Counterexample to claim C4: when the target configuration directory is
missing, `cleanup_old_backups` fails to list it; `sync_to_target` propagates
that pruning failure with `?`, so the copy phase never runs (the final state
still lacks the item), although the copy phase alone would have succeeded
and created the item. -/
theorem c4_counterexample :
    syncToTarget [("settings.json", FsNode.file "new")] none ["settings.json"] 1 100
        (fun _ => true)
      = (none, some "Failed to read directory for backup cleanup") ∧
    copyPhase [("settings.json", FsNode.file "new")] none ["settings.json"]
      = (some [("settings.json", FsNode.file "new")], none) :=
  ⟨rfl, rfl⟩

/-- Claim C4 (amended): once the directory listing succeeds, backup pruning
never fails — every per-snapshot deletion failure (any `rmOk` oracle) is
downgraded to a warning — and the enclosing sync still runs its copy phase to
completion for that target. -/
theorem c4_amended (srcDir : Dir) (d : Dir) (items : List String) (k ts : Nat)
    (rmOk : String → Bool)
    (hfresh : lookupEntry d (backupName ts) = none)
    (hnodup : items.Nodup)
    (hsrc : ∀ it ∈ items, (lookupEntry srcDir it).isSome)
    (hcompat : ∀ it ∈ items, kindCompat (lookupEntry d it) (lookupEntry srcDir it))
    (hpre : ∀ it ∈ items, ¬ backupPrefixStr.data.isPrefixOf it.data = true) :
    (cleanupOldBackups (some d) k rmOk).2.2 = none ∧
    ∃ d2, syncToTarget srcDir (some d) items k ts rmOk = (some d2, none) ∧
      ∀ it ∈ items, lookupEntry d2 it = lookupEntry srcDir it := by
  refine ⟨rfl, ?_⟩
  have hit_ne_bn : ∀ it ∈ items, it ≠ backupName ts := by
    intro it hit heq
    apply hpre it hit
    rw [heq]
    exact backupName_has_pre ts
  -- state after the backup step, with item lookups unchanged
  have hbackup : ∃ d1, createBackup ts (some d) items = (some d1, Except.ok
        (if items.filter (fun it => (lookupEntry d it).isSome) = [] then none
         else some (backupName ts))) ∧
      ∀ it ∈ items, lookupEntry d1 it = lookupEntry d it := by
    rcases hfil : items.filter (fun it => (lookupEntry d it).isSome) with _ | ⟨x, xs⟩
    · refine ⟨d, ?_, fun it hit => rfl⟩
      rw [if_pos rfl]
      exact createBackup_none ts (some d) items hfil
    · rw [if_neg (by simp)]
      refine ⟨d ++ [(backupName ts, FsNode.dir
        ((items.filter (fun it => (lookupEntry d it).isSome)).map
          (fun it => (it, (lookupEntry d it).getD (FsNode.file "")))))], ?_, ?_⟩
      · exact createBackup_spec ts d items hfresh hnodup (by rw [hfil]; simp)
      · intro it hit
        exact lookupEntry_append_single_ne d (backupName ts) it _ (hit_ne_bn it hit)
  obtain ⟨d1, hcb, hlook1⟩ := hbackup
  -- state after pruning (when retention is positive), with item lookups unchanged
  have hcleanup : ∀ dx : Dir, ∃ dc wc, cleanupOldBackups (some dx) k rmOk = (some dc, wc, none) ∧
      ∀ it ∈ items, lookupEntry dc it = lookupEntry dx it := by
    intro dx
    refine ⟨(removeLoop rmOk (dx, []) ((sortDesc (backupsIn dx)).drop k)).1,
      (removeLoop rmOk (dx, []) ((sortDesc (backupsIn dx)).drop k)).2, rfl, ?_⟩
    intro it hit
    apply removeLoop_lookup
    intro b hb hbn
    obtain ⟨e2, he2, hke2⟩ := List.mem_filterMap.1
      ((sortDesc_perm _).mem_iff.1 ((List.drop_sublist _ _).mem hb))
    have hprefix := backupEntryKey_pre e2 b hke2
    rw [hbn] at hprefix
    exact hpre it hit hprefix
  have hcompat1 : ∀ it ∈ items, kindCompat (lookupEntry d1 it) (lookupEntry srcDir it) := by
    intro it hit
    rw [hlook1 it hit]
    exact hcompat it hit
  by_cases hk : k > 0
  · obtain ⟨dc, wc, hcl, hlookc⟩ := hcleanup d1
    have hcompatc : ∀ it ∈ items, kindCompat (lookupEntry dc it) (lookupEntry srcDir it) := by
      intro it hit
      rw [hlookc it hit]
      exact hcompat1 it hit
    obtain ⟨d2, hcp, hitems, _, _, _, _⟩ := copyPhase_spec srcDir items dc hsrc hcompatc
    refine ⟨d2, ?_, hitems⟩
    simp only [syncToTarget, hcb]
    rw [if_pos hk]
    simp only [hcl]
    exact hcp
  · obtain ⟨d2, hcp, hitems, _, _, _, _⟩ := copyPhase_spec srcDir items d1 hsrc hcompat1
    refine ⟨d2, ?_, hitems⟩
    simp only [syncToTarget, hcb]
    rw [if_neg hk]
    exact hcp

/-! ### Retention-bound development (C3) -/

theorem backupsIn_eq_nil (d : Dir)
    (h : ∀ e ∈ d, ¬ backupPrefixStr.data.isPrefixOf e.1.data = true) :
    backupsIn d = [] :=
  List.filterMap_eq_nil_iff.2 (fun e he => backupEntryKey_eq_none_of_no_pre e (h e he))

theorem reverse_drop {α : Type} (l : List α) (k : Nat) :
    l.reverse.drop k = (l.take (l.length - k)).reverse := by
  induction l generalizing k with
  | nil => simp
  | cons x xs ih =>
    by_cases h : k ≤ xs.length
    · rw [List.reverse_cons, List.drop_append_of_le_length (by simpa using h), ih]
      have h1 : (x :: xs).length - k = (xs.length - k) + 1 := by
        simp only [List.length_cons]
        omega
      rw [h1, List.take_succ_cons, List.reverse_cons]
    · have hlen : (x :: xs).reverse.length ≤ k := by
        simp only [List.length_reverse, List.length_cons]
        omega
      rw [List.drop_eq_nil_of_le hlen]
      have h0 : (x :: xs).length - k = 0 := by
        simp only [List.length_cons]
        omega
      rw [h0, List.take_zero, List.reverse_nil]

/-- Filtering the canonical snapshot list by "name not among the first `j`
canonical names" keeps exactly the snapshots beyond position `j`. -/
theorem filter_take_drop (C : List Nat) (j : Nat) (hC : C.Pairwise (· < ·))
    (h64 : ∀ c ∈ C, c < 2 ^ 64) :
    ((C.map (fun t => (backupName t, t))).filter
        (fun b => decide (b.1 ∉ (C.take j).map backupName)))
      = (C.drop j).map (fun t => (backupName t, t)) := by
  induction C generalizing j with
  | nil => simp
  | cons c rest ih =>
    have hpair := List.pairwise_cons.1 hC
    cases j with
    | zero =>
      simp only [List.take_zero, List.map_nil, List.drop_zero]
      apply List.filter_eq_self.2
      intro b hb
      simp
    | succ j2 =>
      simp only [List.take_succ_cons, List.map_cons, List.filter_cons, List.drop_succ_cons]
      rw [if_neg (by simp)]
      rw [List.filter_congr (q := fun b => decide (b.1 ∉ (rest.take j2).map backupName))
        (fun b hb => by
          obtain ⟨r, hr, hbr⟩ := List.mem_map.1 hb
          have hne : backupName r ≠ backupName c := by
            intro he
            have hrc : r = c := backupName_injective r c
              (h64 r (List.mem_cons_of_mem _ hr)) (h64 c (List.mem_cons_self _ _)) he
            have := hpair.1 r hr
            omega
          rw [← hbr]
          simp [hne])]
      exact ih j2 hpair.2 (fun x hx => h64 x (List.mem_cons_of_mem _ hx))

/-- Keeping the `k` newest of the `k` newest extended by later snapshots is
keeping the `k` newest overall. -/
theorem lastK_append (A rest : List Nat) (k : Nat) :
    ((A.drop (A.length - k)) ++ rest).drop (((A.drop (A.length - k)) ++ rest).length - k)
      = (A ++ rest).drop ((A ++ rest).length - k) := by
  have hda : A.drop (A.length - k) ++ rest = (A ++ rest).drop (A.length - k) := by
    rw [List.drop_append_eq_append_drop]
    have h0 : A.length - k - A.length = 0 := by omega
    rw [h0, List.drop_zero]
  rw [hda, List.drop_drop]
  congr 1
  simp only [List.length_append, List.length_drop]
  omega

/-- The sync-loop invariant for the retention bound: the target directory has
distinct entry names, its snapshots are exactly the canonical snapshots for
the ascending timestamp list `B` (at most `k` of them, all below `2^64`),
every prefix-named entry is one of them, and the planned items are present
and kind-compatible with the source. -/
def Inv (srcDir : Dir) (items : List String) (k : Nat) (d : Dir) (B : List Nat) : Prop :=
  (d.map Prod.fst).Nodup ∧
  backupsIn d = B.map (fun t => (backupName t, t)) ∧
  (∀ e ∈ d, backupPrefixStr.data.isPrefixOf e.1.data = true → ∃ t ∈ B, e.1 = backupName t) ∧
  (∃ it ∈ items, (lookupEntry d it).isSome) ∧
  (∀ it ∈ items, kindCompat (lookupEntry d it) (lookupEntry srcDir it)) ∧
  B.Pairwise (· < ·) ∧ B.length ≤ k ∧ (∀ b ∈ B, b < 2 ^ 64)

theorem syncStep_inv (srcDir : Dir) (items : List String) (k : Nat) (hk : 0 < k)
    (hitems_nodup : items.Nodup)
    (hsrc : ∀ it ∈ items, (lookupEntry srcDir it).isSome)
    (hpre : ∀ it ∈ items, ¬ backupPrefixStr.data.isPrefixOf it.data = true)
    (d : Dir) (B : List Nat) (t : Nat)
    (hinv : Inv srcDir items k d B) (ht64 : t < 2 ^ 64) (htB : ∀ b ∈ B, b < t) :
    ∃ d3, syncToTarget srcDir (some d) items k t (fun _ => true) = (some d3, none) ∧
      Inv srcDir items k d3 ((B ++ [t]).drop (B.length + 1 - k)) := by
  obtain ⟨hnd, hbk, hp3, hex, hcompat, hBpair, hBlen, hB64⟩ := hinv
  have hfresh : lookupEntry d (backupName t) = none := by
    rcases hl : lookupEntry d (backupName t) with _ | v
    · rfl
    · exfalso
      have hmem : backupName t ∈ d.map Prod.fst := by
        rw [← lookupEntry_isSome, hl]
        rfl
      obtain ⟨e, he, hename⟩ := List.mem_map.1 hmem
      obtain ⟨s, hsB, hsname⟩ := hp3 e he (by rw [hename]; exact backupName_has_pre t)
      have hts : t = s := backupName_injective t s ht64 (hB64 s hsB) (by rw [← hename, hsname])
      have := htB s hsB
      omega
  obtain ⟨it0, hit0, hit0s⟩ := hex
  have hfilter_ne : items.filter (fun it => (lookupEntry d it).isSome) ≠ [] := by
    intro hnil
    have hm0 : it0 ∈ items.filter (fun it => (lookupEntry d it).isSome) :=
      List.mem_filter.2 ⟨hit0, hit0s⟩
    rw [hnil] at hm0
    simp at hm0
  have hcb := createBackup_spec t d items hfresh hitems_nodup hfilter_ne
  set snap : Dir := (items.filter (fun it => (lookupEntry d it).isSome)).map
    (fun it => (it, (lookupEntry d it).getD (FsNode.file ""))) with hsnap
  set d1 : Dir := d ++ [(backupName t, FsNode.dir snap)] with hd1
  set C : List Nat := B ++ [t] with hC
  have hnd1 : (d1.map Prod.fst).Nodup := by
    rw [hd1]
    simp only [List.map_append, List.map_cons, List.map_nil]
    refine List.Nodup.append hnd (List.nodup_singleton _) ?_
    intro a ha hb
    rw [List.mem_singleton] at hb
    subst hb
    exact ((lookupEntry_eq_none d _).1 hfresh) ha
  have hbk1 : backupsIn d1 = C.map (fun s => (backupName s, s)) := by
    rw [hd1, backupsIn_append, hbk, hC]
    simp only [List.map_append, List.map_cons, List.map_nil, List.append_cancel_left_eq]
    simp [backupsIn, backupEntryKey_canonical t snap ht64]
  have hCpair : C.Pairwise (· < ·) := by
    rw [hC]
    apply List.pairwise_append.2
    refine ⟨hBpair, List.pairwise_singleton _ _, ?_⟩
    intro a ha b hb
    rw [List.mem_singleton] at hb
    subst hb
    exact htB a ha
  have hC64 : ∀ c ∈ C, c < 2 ^ 64 := by
    intro c hc
    rw [hC] at hc
    rcases List.mem_append.1 hc with h | h
    · exact hB64 c h
    · rw [List.mem_singleton] at h
      subst h
      exact ht64
  have hitem_lookup1 : ∀ it ∈ items, lookupEntry d1 it = lookupEntry d it := by
    intro it hit
    rw [hd1]
    apply lookupEntry_append_single_ne
    intro heq
    apply hpre it hit
    rw [heq]
    exact backupName_has_pre t
  have hp31 : ∀ e ∈ d1, backupPrefixStr.data.isPrefixOf e.1.data = true →
      ∃ s ∈ C, e.1 = backupName s := by
    intro e he hpe
    rw [hd1] at he
    rcases List.mem_append.1 he with h | h
    · obtain ⟨s, hs, hn⟩ := hp3 e h hpe
      refine ⟨s, ?_, hn⟩
      rw [hC]
      exact List.mem_append_left _ hs
    · rw [List.mem_singleton] at h
      subst h
      refine ⟨t, ?_, rfl⟩
      rw [hC]
      simp
  set m : Nat := C.length with hm
  set rm : List (String × Nat) := (sortDesc (backupsIn d1)).drop k with hrm
  have hsort : sortDesc (backupsIn d1) = (C.map (fun s => (backupName s, s))).reverse := by
    rw [hbk1]
    apply sortDesc_of_ascending
    rw [List.pairwise_map]
    exact hCpair
  have hrm_eq : rm = ((C.take (m - k)).map (fun s => (backupName s, s))).reverse := by
    rw [hrm, hsort, reverse_drop, List.length_map, ← hm, List.map_take]
  have hrm_names : ∀ b : String × Nat, b.1 ∈ rm.map Prod.fst ↔
      b.1 ∈ (C.take (m - k)).map backupName := by
    intro b
    rw [hrm_eq, List.map_reverse, List.mem_reverse, List.map_map]
    constructor
    · intro h
      simpa [Function.comp] using h
    · intro h
      simpa [Function.comp] using h
  have hcl : cleanupOldBackups (some d1) k (fun _ => true)
      = (some (removeLoop (fun _ => true) (d1, []) rm).1,
         (removeLoop (fun _ => true) (d1, []) rm).2, none) := by
    rw [hrm]
    rfl
  set d2 : Dir := (removeLoop (fun _ => true) (d1, []) rm).1 with hd2
  have hbk2 : backupsIn d2 = (C.drop (m - k)).map (fun s => (backupName s, s)) := by
    rw [hd2, removeLoop_backupsIn rm (d1, []) hnd1]
    show (backupsIn d1).filter (fun b => decide (b.1 ∉ rm.map Prod.fst))
      = (C.drop (m - k)).map (fun s => (backupName s, s))
    have hcg : (backupsIn d1).filter (fun b => decide (b.1 ∉ rm.map Prod.fst))
        = (backupsIn d1).filter
            (fun b => decide (b.1 ∉ (C.take (m - k)).map backupName)) :=
      List.filter_congr (l := backupsIn d1)
        (fun b hb => decide_eq_decide.2 (not_congr (hrm_names b)))
    rw [hcg, hbk1]
    exact filter_take_drop C (m - k) hCpair hC64
  have hsub2 : ∀ e ∈ d2, e ∈ d1 := by
    intro e he
    exact (removeLoop_sublist (fun _ => true) rm (d1, [])).mem he
  have hnd2 : (d2.map Prod.fst).Nodup :=
    ((removeLoop_sublist (fun _ => true) rm (d1, [])).map Prod.fst).nodup hnd1
  have hlookup2 : ∀ it ∈ items, lookupEntry d2 it = lookupEntry d1 it := by
    intro it hit
    rw [hd2]
    apply removeLoop_lookup
    intro b hb heq
    apply hpre it hit
    rw [← heq]
    obtain ⟨e2, he2, hke2⟩ := List.mem_filterMap.1
      ((sortDesc_perm _).mem_iff.1 ((List.drop_sublist _ _).mem (hrm ▸ hb)))
    exact backupEntryKey_pre e2 b hke2
  have hp32 : ∀ e ∈ d2, backupPrefixStr.data.isPrefixOf e.1.data = true →
      ∃ s ∈ C.drop (m - k), e.1 = backupName s := by
    intro e he hpe
    obtain ⟨s, hsC, hname⟩ := hp31 e (hsub2 e he) hpe
    have hcanb : (backupName s, s) ∈ backupsIn d1 := by
      rw [hbk1]
      exact List.mem_map_of_mem _ hsC
    obtain ⟨e2, he2, hke2⟩ := List.mem_filterMap.1 hcanb
    have he2e : e2 = e := by
      apply nodup_entry_name_inj d1 hnd1 e2 e he2 (hsub2 e he)
      have hname2 : backupName s = e2.1 := backupEntryKey_name e2 (backupName s, s) hke2
      rw [← hname2, hname]
    have hkee : backupEntryKey e = some (backupName s, s) := by
      rw [← he2e]
      exact hke2
    have hin2 : (backupName s, s) ∈ backupsIn d2 :=
      List.mem_filterMap.2 ⟨e, he, hkee⟩
    rw [hbk2] at hin2
    obtain ⟨s2, hs2, hs2eq⟩ := List.mem_map.1 hin2
    have : s2 = s := congrArg Prod.snd hs2eq
    exact ⟨s, this ▸ hs2, hname⟩
  have hcompat2 : ∀ it ∈ items, kindCompat (lookupEntry d2 it) (lookupEntry srcDir it) := by
    intro it hit
    rw [hlookup2 it hit, hitem_lookup1 it hit]
    exact hcompat it hit
  obtain ⟨d3, hcp, hitems3, hframe3, hmem3, hnd3f, hbk3f⟩ :=
    copyPhase_spec srcDir items d2 hsrc hcompat2
  refine ⟨d3, ?_, ?_⟩
  · simp only [syncToTarget, hcb]
    rw [if_pos hk]
    simp only [hcl]
    exact hcp
  · have hmk : m - k = B.length + 1 - k := by
      rw [hm, hC]
      simp
    refine ⟨hnd3f hnd2, ?_, ?_, ?_, ?_, ?_, ?_, ?_⟩
    · rw [hbk3f hpre, hbk2, hmk]
    · intro e he hpe
      rcases hmem3 e he with h | h
      · obtain ⟨s, hs, hn⟩ := hp32 e h hpe
        rw [hmk] at hs
        exact ⟨s, hs, hn⟩
      · exfalso
        exact hpre e.1 h hpe
    · refine ⟨it0, hit0, ?_⟩
      rw [hitems3 it0 hit0]
      exact hsrc it0 hit0
    · intro it hit
      rw [hitems3 it hit]
      intro a b ha hb
      rw [ha] at hb
      cases hb
      rfl
    · exact List.Pairwise.sublist (List.drop_sublist _ _) hCpair
    · rw [List.length_drop]
      have hmlen : C.length = B.length + 1 := by
        rw [hC]
        simp
      omega
    · intro b hb
      exact hC64 b ((List.drop_sublist _ _).mem hb)

theorem syncN_inv (srcDir : Dir) (items : List String) (k : Nat) (hk : 0 < k)
    (hitems_nodup : items.Nodup)
    (hsrc : ∀ it ∈ items, (lookupEntry srcDir it).isSome)
    (hpre : ∀ it ∈ items, ¬ backupPrefixStr.data.isPrefixOf it.data = true) :
    ∀ (L : List Nat) (d : Dir) (B : List Nat),
      Inv srcDir items k d B →
      L.Pairwise (· < ·) → (∀ t ∈ L, t < 2 ^ 64) → (∀ b ∈ B, ∀ t ∈ L, b < t) →
      ∃ df, syncN srcDir items k (fun _ => true) (some d) L = some df ∧
        Inv srcDir items k df ((B ++ L).drop ((B ++ L).length - k)) := by
  intro L
  induction L with
  | nil =>
    intro d B hinv hLp hL64 hBL
    refine ⟨d, rfl, ?_⟩
    have hBlen := hinv.2.2.2.2.2.2.1
    have h0 : (B ++ ([] : List Nat)).length - k = 0 := by
      simp only [List.append_nil]
      omega
    rw [h0, List.drop_zero, List.append_nil]
    exact hinv
  | cons t L2 ih =>
    intro d B hinv hLp hL64 hBL
    obtain ⟨d1, hstep, hinv1⟩ := syncStep_inv srcDir items k hk hitems_nodup hsrc hpre d B t
      hinv (hL64 t (List.mem_cons_self _ _)) (fun b hb => hBL b hb t (List.mem_cons_self _ _))
    have hrun : syncN srcDir items k (fun _ => true) (some d) (t :: L2)
        = syncN srcDir items k (fun _ => true) (some d1) L2 := by
      rw [syncN, hstep]
    obtain ⟨df, hruns, hinvf⟩ := ih d1 ((B ++ [t]).drop (B.length + 1 - k)) hinv1
      (List.pairwise_cons.1 hLp).2
      (fun s hs => hL64 s (List.mem_cons_of_mem _ hs))
      (fun b hb s hs => by
        rcases List.mem_append.1 ((List.drop_sublist _ _).mem hb) with h | h
        · exact hBL b h s (List.mem_cons_of_mem _ hs)
        · rw [List.mem_singleton] at h
          subst h
          exact (List.pairwise_cons.1 hLp).1 s hs)
    refine ⟨df, by rw [hrun]; exact hruns, ?_⟩
    have hlen1 : (B ++ [t]).length = B.length + 1 := by simp
    have e1 : (B ++ [t]).drop (B.length + 1 - k) = (B ++ [t]).drop ((B ++ [t]).length - k) := by
      rw [hlen1]
    rw [e1, lastK_append (B ++ [t]) L2 k] at hinvf
    have e2 : (B ++ [t]) ++ L2 = B ++ (t :: L2) := by simp
    rw [e2] at hinvf
    exact hinvf

/-- Claim C3: after N successive syncs to the same target with retention
`k`, `0 < k < N`, the target configuration directory holds exactly the `k`
backup snapshots with the largest timestamps — the canonical snapshots of
the last `k` sync timestamps. -/
theorem c3_retention_bound (srcDir : Dir) (items : List String) (d0 : Dir)
    (L : List Nat) (k : Nat)
    (hk : 0 < k) (hkN : k < L.length)
    (hL : L.Pairwise (· < ·)) (hL64 : ∀ t ∈ L, t < 2 ^ 64)
    (hitems_ne : items ≠ []) (hitems_nodup : items.Nodup)
    (hsrc : ∀ it ∈ items, (lookupEntry srcDir it).isSome)
    (hpre : ∀ it ∈ items, ¬ backupPrefixStr.data.isPrefixOf it.data = true)
    (hd0_nopre : ∀ e ∈ d0, ¬ backupPrefixStr.data.isPrefixOf e.1.data = true)
    (hd0_nodup : (d0.map Prod.fst).Nodup)
    (hd0_compat : ∀ it ∈ items, kindCompat (lookupEntry d0 it) (lookupEntry srcDir it)) :
    ∃ df, syncN srcDir items k (fun _ => true) (some d0) L = some df ∧
      backupsIn df = (L.drop (L.length - k)).map (fun t => (backupName t, t)) := by
  have hbs0 : backupsIn d0 = [] := backupsIn_eq_nil d0 hd0_nopre
  by_cases hex : ∃ it ∈ items, (lookupEntry d0 it).isSome
  · have hinv0 : Inv srcDir items k d0 [] := by
      refine ⟨hd0_nodup, by rw [hbs0]; rfl, ?_, hex, hd0_compat, by simp, by simp, by simp⟩
      intro e he hpe
      exact absurd hpe (hd0_nopre e he)
    obtain ⟨df, hrun, hinvf⟩ := syncN_inv srcDir items k hk hitems_nodup hsrc hpre L d0 []
      hinv0 hL hL64 (by simp)
    refine ⟨df, hrun, ?_⟩
    have := hinvf.2.1
    rw [List.nil_append] at this
    exact this
  · -- no planned item exists yet: the first sync creates no backup
    push_neg at hex
    have hnone : ∀ it ∈ items, lookupEntry d0 it = none := by
      intro it hit
      have hx := hex it hit
      rcases hl : lookupEntry d0 it with _ | v
      · rfl
      · rw [hl] at hx
        simp at hx
    rcases L with _ | ⟨t, L2⟩
    · simp at hkN
    have hfil : items.filter (fun it => (lookupEntry d0 it).isSome) = [] := by
      apply List.filter_eq_nil_iff.2
      intro it hit
      rw [hnone it hit]
      simp
    have hcb : createBackup t (some d0) items = (some d0, Except.ok none) :=
      createBackup_none t (some d0) items hfil
    have hcl : cleanupOldBackups (some d0) k (fun _ => true) = (some d0, [], none) := by
      simp [cleanupOldBackups, hbs0, sortDesc, removeLoop]
    have hcompat0 : ∀ it ∈ items, kindCompat (lookupEntry d0 it) (lookupEntry srcDir it) :=
      hd0_compat
    obtain ⟨d1, hcp, hitems1, hframe1, hmem1, hnd1f, hbk1f⟩ :=
      copyPhase_spec srcDir items d0 hsrc hcompat0
    have hstep1 : syncToTarget srcDir (some d0) items k t (fun _ => true) = (some d1, none) := by
      simp only [syncToTarget, hcb]
      rw [if_pos hk]
      simp only [hcl]
      exact hcp
    have hinv1 : Inv srcDir items k d1 [] := by
      obtain ⟨it0, hit0⟩ := List.exists_mem_of_ne_nil items hitems_ne
      refine ⟨hnd1f hd0_nodup, ?_, ?_, ⟨it0, hit0, ?_⟩, ?_, by simp, by simp, by simp⟩
      · rw [hbk1f hpre, hbs0]
        rfl
      · intro e he hpe
        exfalso
        rcases hmem1 e he with h | h
        · exact hd0_nopre e h hpe
        · exact hpre e.1 h hpe
      · rw [hitems1 it0 hit0]
        exact hsrc it0 hit0
      · intro it hit
        rw [hitems1 it hit]
        intro a b ha hb
        rw [ha] at hb
        cases hb
        rfl
    obtain ⟨df, hruns, hinvf⟩ := syncN_inv srcDir items k hk hitems_nodup hsrc hpre L2 d1 []
      hinv1 (List.pairwise_cons.1 hL).2
      (fun s hs => hL64 s (List.mem_cons_of_mem _ hs)) (by simp)
    refine ⟨df, ?_, ?_⟩
    · rw [syncN, hstep1]
      exact hruns
    · have hfin := hinvf.2.1
      rw [List.nil_append] at hfin
      rw [hfin]
      congr 1
      have hkL : k ≤ L2.length := by
        simp only [List.length_cons] at hkN
        omega
      have harith : (t :: L2).length - k = (L2.length - k) + 1 := by
        simp only [List.length_cons]
        omega
      rw [harith, List.drop_succ_cons]

/-- Witness for the amended C1: a concrete three-target run where the middle
target fails leaves the trailing target untouched. -/
theorem c1_amended_witness :
    runSyncTargets [("settings.json", FsNode.file "new")] ["settings.json"] 1 100 (fun _ => true)
        ([("p", some [])] ++ ("a", (none : Option Dir)) :: [("z", some [])]) =
      ([("p", some [])].map (fun t => (t.1,
          (syncToTarget [("settings.json", FsNode.file "new")] t.2 ["settings.json"] 1 100
            (fun _ => true)).1))
        ++ ("a", (none : Option Dir)) :: [("z", some [])],
       some "Failed to read directory for backup cleanup") :=
  c1_amended [("settings.json", FsNode.file "new")] ["settings.json"] 1 100 (fun _ => true)
    [("p", some [])] [("z", some [])] "a" none none
    "Failed to read directory for backup cleanup"
    (fun t ht => by rw [List.mem_singleton] at ht; subst ht; rfl) rfl

/-- Witness for the amended C4: with every snapshot removal failing, a
concrete sync still completes its copy phase. -/
theorem c4_amended_witness :
    (cleanupOldBackups (some []) 1 (fun _ => false)).2.2 = none ∧
    ∃ d2, syncToTarget [("settings.json", FsNode.file "new")] (some []) ["settings.json"] 1 100
        (fun _ => false) = (some d2, none) ∧
      ∀ it ∈ ["settings.json"], lookupEntry d2 it =
        lookupEntry [("settings.json", FsNode.file "new")] it :=
  c4_amended [("settings.json", FsNode.file "new")] [] ["settings.json"] 1 100 (fun _ => false)
    rfl (by decide)
    (fun it hit => by rw [List.mem_singleton] at hit; subst hit; rfl)
    (fun it hit => by intro a b ha hb; exact Option.noConfusion ha)
    (fun it hit => by rw [List.mem_singleton] at hit; subst hit; decide)

/-- Witness for C3: two syncs with retention 1 into an initially empty
target leave exactly the newest snapshot. -/
theorem c3_retention_bound_witness :
    ∃ df, syncN [("settings.json", FsNode.file "x")] ["settings.json"] 1 (fun _ => true)
        (some []) [100, 200] = some df ∧
      backupsIn df = (([100, 200] : List Nat).drop (([100, 200] : List Nat).length - 1)).map
        (fun t => (backupName t, t)) :=
  c3_retention_bound [("settings.json", FsNode.file "x")] ["settings.json"] [] [100, 200] 1
    (by decide) (by decide) (by decide) (by decide) (by decide) (by decide)
    (fun it hit => by rw [List.mem_singleton] at hit; subst hit; rfl)
    (fun it hit => by rw [List.mem_singleton] at hit; subst hit; decide)
    (fun e he => absurd he (List.not_mem_nil e))
    (by simp)
    (fun it hit => by intro a b ha hb; exact Option.noConfusion ha)

/-! ### Tree-diff lemmas -/

theorem jeq_refl_all (n : Nat) :
    (∀ v : JValue, sizeOf v ≤ n → jeqB v v = true) ∧
    (∀ l : List JValue, sizeOf l ≤ n → jeqListB l l = true) ∧
    (∀ fs : List (String × JValue), sizeOf fs ≤ n → jeqFieldsB fs fs = true) := by
  induction n using Nat.strong_induction_on with
  | _ n ih =>
    refine ⟨?_, ?_, ?_⟩
    · intro v hv
      cases v with
      | null => simp [jeqB]
      | bool b => simp [jeqB]
      | num i => simp [jeqB]
      | str s => simp [jeqB]
      | arr a =>
        have hs : sizeOf a < n := by
          have := JValue.arr.sizeOf_spec a
          omega
        simp only [jeqB]
        exact (ih (sizeOf a) hs).2.1 a (le_refl _)
      | obj fs =>
        have hs : sizeOf fs < n := by
          have := JValue.obj.sizeOf_spec fs
          omega
        simp only [jeqB]
        exact (ih (sizeOf fs) hs).2.2 fs (le_refl _)
    · intro l hl
      cases l with
      | nil => simp [jeqListB]
      | cons x xs =>
        have hsz := List.cons.sizeOf_spec x xs
        simp only [jeqListB, Bool.and_eq_true]
        exact ⟨(ih (sizeOf x) (by omega)).1 x (le_refl _),
          (ih (sizeOf xs) (by omega)).2.1 xs (le_refl _)⟩
    · intro fs hfs
      cases fs with
      | nil => simp [jeqFieldsB]
      | cons e rest =>
        obtain ⟨ky, vv⟩ := e
        have hsz := List.cons.sizeOf_spec (ky, vv) rest
        have hsz2 := Prod.mk.sizeOf_spec ky vv
        simp only [jeqFieldsB, Bool.and_eq_true]
        refine ⟨⟨by simp, ?_⟩, ?_⟩
        · exact (ih (sizeOf vv) (by omega)).1 vv (le_refl _)
        · exact (ih (sizeOf rest) (by omega)).2.2 rest (le_refl _)

theorem jeqB_refl (v : JValue) : jeqB v v = true :=
  (jeq_refl_all (sizeOf v)).1 v (le_refl _)

theorem optMapM_none_iff {α β : Type} (f : α → Option β) (l : List α) :
    l.mapM f = none ↔ ∃ k ∈ l, f k = none := by
  induction l with
  | nil =>
    rw [List.mapM_nil]
    constructor
    · intro h
      exact Option.noConfusion h
    · rintro ⟨k, hk, _⟩
      exact absurd hk (List.not_mem_nil k)
  | cons x xs ih =>
    rw [List.mapM_cons]
    rcases hx : f x with _ | b
    · simp only [Option.bind_eq_bind, Option.none_bind]
      constructor
      · intro _
        exact ⟨x, List.mem_cons_self _ _, hx⟩
      · intro _
        trivial
    · rcases hxs : xs.mapM f with _ | bs
      · rw [hxs] at ih
        simp only [Option.bind_eq_bind, Option.some_bind, Option.none_bind]
        constructor
        · intro _
          obtain ⟨k, hk, hfk⟩ := ih.1 rfl
          exact ⟨k, List.mem_cons_of_mem _ hk, hfk⟩
        · intro _
          trivial
      · rw [hxs] at ih
        simp only [Option.bind_eq_bind, Option.some_bind, Option.pure_def]
        constructor
        · intro h
          exact Option.noConfusion h
        · rintro ⟨k, hk, hfk⟩
          rcases List.mem_cons.1 hk with h1 | h1
          · rw [h1, hx] at hfk
            exact Option.noConfusion hfk
          · exfalso
            have hni : (some bs : Option (List β)) = none := ih.2 ⟨k, h1, hfk⟩
            exact Option.noConfusion hni

theorem optMapM_some_of {α β : Type} (f : α → Option β) (g : α → β) (l : List α)
    (h : ∀ k ∈ l, f k = some (g k)) : l.mapM f = some (l.map g) := by
  induction l with
  | nil => rfl
  | cons x xs ih =>
    rw [List.mapM_cons, h x (List.mem_cons_self _ _),
      ih (fun k hk => h k (List.mem_cons_of_mem _ hk))]
    rfl

theorem optMapM_some_elim {α β : Type} [Inhabited β] (f : α → Option β) (l : List α)
    (subs : List β) (h : l.mapM f = some subs) :
    (∀ k ∈ l, (f k).isSome) ∧ subs = l.map (fun k => (f k).getD default) := by
  induction l generalizing subs with
  | nil =>
    rw [List.mapM_nil] at h
    simp only [Option.pure_def, Option.some.injEq] at h
    subst h
    exact ⟨by simp, by simp⟩
  | cons x xs ih =>
    rw [List.mapM_cons] at h
    rcases hx : f x with _ | b
    · rw [hx] at h
      simp only [Option.bind_eq_bind, Option.none_bind] at h
      exact Option.noConfusion h
    · rw [hx] at h
      simp only [Option.bind_eq_bind, Option.some_bind] at h
      rcases hxs : xs.mapM f with _ | bs
      · rw [hxs] at h
        simp only [Option.none_bind] at h
        exact Option.noConfusion h
      · rw [hxs] at h
        simp only [Option.some_bind, Option.pure_def, Option.some.injEq] at h
        obtain ⟨hall, hsubs⟩ := ih bs hxs
        constructor
        · intro k hk
          rcases List.mem_cons.1 hk with h1 | h1
          · rw [h1, hx]
            rfl
          · exact hall k h1
        · rw [← h, List.map_cons, hx, ← hsubs]
          rfl

def isObjB : JValue → Bool
  | .obj _ => true
  | _ => false

theorem diffJ_shape (ord : List String → List String) (v1 v2 : JValue) (pre : String)
    (l : List DiffEntry) (h : diff_json_objects ord v1 v2 pre = some l)
    (hno : isObjB v1 = false ∨ isObjB v2 = false) :
    l = [] ∨ ∃ s, l = [⟨DiffKind.changed, s⟩] := by
  cases v1 <;> cases v2 <;> try (simp [isObjB] at hno)
  all_goals (
    simp only [diff_json_objects] at h
    split at h
    · exact Or.inl (Option.some_injective _ h).symm
    · split at h
      · exact Or.inr ⟨_, (Option.some_injective _ h).symm⟩
      · exact Option.noConfusion h)

theorem flatten_congr_perm {α β : Type} (g1 g2 : α → List β) (l : List α)
    (h : ∀ k ∈ l, (g1 k).Perm (g2 k)) : ((l.map g1).flatten).Perm ((l.map g2).flatten) := by
  induction l with
  | nil => simp
  | cons x xs ihh =>
    simp only [List.map_cons, List.flatten_cons]
    exact (h x (List.mem_cons_self _ _)).append (ihh fun k hk => h k (List.mem_cons_of_mem _ hk))

theorem diffJ_perm_aux (ord1 ord2 : List String → List String)
    (h1 : ∀ l, (ord1 l).Perm l) (h2 : ∀ l, (ord2 l).Perm l) :
    ∀ n : Nat, ∀ v1 v2 : JValue, sizeOf v1 ≤ n → ∀ pre : String,
      (diff_json_objects ord1 v1 v2 pre = none ↔ diff_json_objects ord2 v1 v2 pre = none) ∧
      (∀ l1 l2, diff_json_objects ord1 v1 v2 pre = some l1 →
        diff_json_objects ord2 v1 v2 pre = some l2 → l1.Perm l2) := by
  intro n
  induction n using Nat.strong_induction_on with
  | _ n ih =>
    intro v1 v2 hsz pre
    rcases v1 with _ | b1 | n1 | s1 | a1 | o1 <;> rcases v2 with _ | b2 | n2 | s2 | a2 | o2
    case obj.obj =>
      have hrec : ∀ k, sizeOf (objLookup o1 k) < n := by
        intro k
        have hh := sizeOf_objLookup o1 k
        have := JValue.obj.sizeOf_spec o1
        omega
      have hIH : ∀ k pre2,
          (diff_json_objects ord1 (objLookup o1 k) (objLookup o2 k) pre2 = none ↔
            diff_json_objects ord2 (objLookup o1 k) (objLookup o2 k) pre2 = none) ∧
          (∀ l1 l2, diff_json_objects ord1 (objLookup o1 k) (objLookup o2 k) pre2 = some l1 →
            diff_json_objects ord2 (objLookup o1 k) (objLookup o2 k) pre2 = some l2 →
              l1.Perm l2) :=
        fun k pre2 => ih (sizeOf (objLookup o1 k)) (hrec k) (objLookup o1 k) (objLookup o2 k)
          (le_refl _) pre2
      set common : List String :=
        (o1.map Prod.fst).filter (fun k => (o2.map Prod.fst).contains k) with hcommon
      set f1 : String → Option (List DiffEntry) :=
        fun k => diff_json_objects ord1 (objLookup o1 k) (objLookup o2 k) (pathJoin pre k)
        with hf1
      set f2 : String → Option (List DiffEntry) :=
        fun k => diff_json_objects ord2 (objLookup o1 k) (objLookup o2 k) (pathJoin pre k)
        with hf2
      have hnone_iff : (ord1 common).mapM f1 = none ↔ (ord2 common).mapM f2 = none := by
        rw [optMapM_none_iff, optMapM_none_iff]
        constructor
        · rintro ⟨k, hk, hfk⟩
          exact ⟨k, (h2 common).mem_iff.2 ((h1 common).mem_iff.1 hk),
            ((hIH k (pathJoin pre k)).1).1 hfk⟩
        · rintro ⟨k, hk, hfk⟩
          exact ⟨k, (h1 common).mem_iff.2 ((h2 common).mem_iff.1 hk),
            ((hIH k (pathJoin pre k)).1).2 hfk⟩
      constructor
      · simp only [diff_json_objects]
        rcases hm1 : (ord1 common).mapM f1 with _ | subs1 <;>
          rcases hm2 : (ord2 common).mapM f2 with _ | subs2
        · simp
        · rw [hm2] at hnone_iff
          have := hnone_iff.1 hm1
          exact absurd this (by simp)
        · rw [hm1] at hnone_iff
          have := hnone_iff.2 hm2
          exact absurd this (by simp)
        · simp
      · intro l1 l2 ha hb
        revert ha hb
        simp only [diff_json_objects]
        rcases hm1 : (ord1 common).mapM f1 with _ | subs1
        · intro ha hb
          exact Option.noConfusion ha
        rcases hm2 : (ord2 common).mapM f2 with _ | subs2
        · intro ha hb
          exact Option.noConfusion hb
        intro ha hb
        have ha2 := Option.some_injective _ ha
        have hb2 := Option.some_injective _ hb
        subst ha2
        subst hb2
        obtain ⟨hall1, hsubs1⟩ := optMapM_some_elim f1 (ord1 common) subs1 hm1
        obtain ⟨hall2, hsubs2⟩ := optMapM_some_elim f2 (ord2 common) subs2 hm2
        have hpoint : ∀ k ∈ common,
            ((f1 k).getD default).Perm ((f2 k).getD default) := by
          intro k hk
          have hs1 := hall1 k ((h1 common).mem_iff.2 hk)
          have hs2 := hall2 k ((h2 common).mem_iff.2 hk)
          obtain ⟨lk1, hlk1⟩ := Option.isSome_iff_exists.1 hs1
          obtain ⟨lk2, hlk2⟩ := Option.isSome_iff_exists.1 hs2
          rw [hlk1, hlk2]
          exact (hIH k (pathJoin pre k)).2 lk1 lk2 hlk1 hlk2
        have hflat : subs1.flatten.Perm subs2.flatten := by
          rw [hsubs1, hsubs2]
          have p1 := (((h1 common).map (fun k => (f1 k).getD default))).flatten
          have p2 := flatten_congr_perm (fun k => (f1 k).getD default)
            (fun k => (f2 k).getD default) common hpoint
          have p3 := (((h2 common).map (fun k => (f2 k).getD default))).flatten
          exact (p1.trans p2).trans p3.symm
        refine List.Perm.append (List.Perm.append ?_ ?_) hflat
        · exact ((h1 _).map _).trans (((h2 _).map _).symm)
        · exact ((h1 _).map _).trans (((h2 _).map _).symm)
    all_goals (
      simp only [diff_json_objects]
      refine ⟨by first | exact Iff.rfl | trivial, fun l1 l2 ha hb => ?_⟩
      rw [ha] at hb
      cases Option.some_injective _ hb
      exact List.Perm.refl _)

theorem containsStr_iff (l : List String) (k : String) :
    l.contains k = true ↔ k ∈ l := by
  simp [List.contains]

theorem flatten_map_nil {α β : Type} (l : List α) :
    (l.map (fun _ => ([] : List β))).flatten = [] := by
  induction l with
  | nil => rfl
  | cons x xs ih => simp [ih]

theorem diffJ_self_aux (ord : List String → List String) (h : ∀ l, (ord l).Perm l) :
    ∀ n : Nat, ∀ v : JValue, sizeOf v ≤ n → ∀ pre : String,
      diff_json_objects ord v v pre = some [] := by
  intro n
  induction n using Nat.strong_induction_on with
  | _ n ih =>
    intro v hsz pre
    rcases v with _ | b | i | s | a | o
    case obj =>
      have hrec : ∀ k, sizeOf (objLookup o k) < n := by
        intro k
        have hh := sizeOf_objLookup o k
        have := JValue.obj.sizeOf_spec o
        omega
      have hcont : ∀ k ∈ o.map Prod.fst, (o.map Prod.fst).contains k = true := by
        intro k hk
        exact (containsStr_iff _ _).2 hk
      have hrem : ((o.map Prod.fst).filter fun k => !((o.map Prod.fst).contains k)) = [] := by
        rw [List.filter_eq_nil_iff]
        intro k hk
        simp only [hcont k hk]
        decide
      have hcom : ((o.map Prod.fst).filter fun k => (o.map Prod.fst).contains k) =
          o.map Prod.fst := by
        rw [List.filter_eq_self]
        exact hcont
      simp only [diff_json_objects]
      rw [hrem, hcom, (h []).eq_nil]
      have hmap : (ord (o.map Prod.fst)).mapM
          (fun k => diff_json_objects ord (objLookup o k) (objLookup o k) (pathJoin pre k)) =
          some ((ord (o.map Prod.fst)).map (fun _ => ([] : List DiffEntry))) := by
        apply optMapM_some_of
        intro k hk
        exact ih (sizeOf (objLookup o k)) (hrec k) (objLookup o k) (le_refl _) (pathJoin pre k)
      rw [hmap]
      simp [flatten_map_nil]
    all_goals simp [diff_json_objects, jeqB_refl]

/-- Claim C2 (counterexample): the diff is not deterministic and its entries are
not sorted by key name — two valid hash-iteration orders on the same inputs
produce the two key orders `a, b` and `b, a`. -/
theorem c2_counterexample :
    (∀ l : List String, (id l : List String).Perm l) ∧
    (∀ l : List String, l.reverse.Perm l) ∧
    diff_json_objects id (JValue.obj [("a", JValue.null), ("b", JValue.null)])
        (JValue.obj []) "" ≠
      diff_json_objects List.reverse
        (JValue.obj [("a", JValue.null), ("b", JValue.null)]) (JValue.obj []) "" := by
  refine ⟨fun l => List.Perm.refl l, fun l => l.reverse_perm, ?_⟩
  have hA : diff_json_objects id (JValue.obj [("a", JValue.null), ("b", JValue.null)])
      (JValue.obj []) "" =
      some [⟨DiffKind.removed, "- a (only in first)"⟩,
        ⟨DiffKind.removed, "- b (only in first)"⟩] := by
    simp [diff_json_objects, List.mapM, List.mapM.loop, pathJoin]
  have hB : diff_json_objects List.reverse
      (JValue.obj [("a", JValue.null), ("b", JValue.null)]) (JValue.obj []) "" =
      some [⟨DiffKind.removed, "- b (only in first)"⟩,
        ⟨DiffKind.removed, "- a (only in first)"⟩] := by
    simp [diff_json_objects, List.mapM, List.mapM.loop, pathJoin]
  rw [hA, hB]
  decide

/-- Claim C2 (amended): the diff output is deterministic only up to entry
order — for any two valid hash-iteration orders on the same inputs, one run
panics iff the other does, and two successful runs produce permutations of
the same entry list; the order itself follows the unordered set iteration. -/
theorem c2_amended (ord1 ord2 : List String → List String)
    (h1 : ∀ l, (ord1 l).Perm l) (h2 : ∀ l, (ord2 l).Perm l)
    (v1 v2 : JValue) (pre : String) :
    (diff_json_objects ord1 v1 v2 pre = none ↔ diff_json_objects ord2 v1 v2 pre = none) ∧
    (∀ l1 l2, diff_json_objects ord1 v1 v2 pre = some l1 →
      diff_json_objects ord2 v1 v2 pre = some l2 → l1.Perm l2) :=
  diffJ_perm_aux ord1 ord2 h1 h2 (sizeOf v1) v1 v2 (le_refl _) pre

/-- Witness for c2_amended: two concrete iteration orders on a two-key object. -/
theorem c2_amended_witness :
    (diff_json_objects id (JValue.obj [("a", JValue.null), ("b", JValue.null)])
        (JValue.obj []) "" = none ↔
      diff_json_objects List.reverse (JValue.obj [("a", JValue.null), ("b", JValue.null)])
        (JValue.obj []) "" = none) ∧
    (∀ l1 l2,
      diff_json_objects id (JValue.obj [("a", JValue.null), ("b", JValue.null)])
        (JValue.obj []) "" = some l1 →
      diff_json_objects List.reverse (JValue.obj [("a", JValue.null), ("b", JValue.null)])
        (JValue.obj []) "" = some l2 → l1.Perm l2) :=
  c2_amended id List.reverse (fun l => List.Perm.refl l) (fun l => l.reverse_perm)
    (JValue.obj [("a", JValue.null), ("b", JValue.null)]) (JValue.obj []) ""

theorem str_sandwich_inj (a b x p : String) (h : a ++ x ++ b = a ++ p ++ b) : x = p := by
  have hd := congrArg String.data h
  simp only [String.data_append] at hd
  exact String.ext (List.append_cancel_left (List.append_cancel_right hd))

theorem mem_flatten_mapM {α β : Type} (f : α → Option (List β)) (l : List α)
    (subs : List (List β)) (hm : l.mapM f = some subs) (x : β) :
    x ∈ subs.flatten ↔ ∃ k ∈ l, ∃ lk, f k = some lk ∧ x ∈ lk := by
  obtain ⟨hall, hsubs⟩ := optMapM_some_elim f l subs hm
  subst hsubs
  rw [List.mem_flatten]
  constructor
  · rintro ⟨lk, hlk, hx⟩
    obtain ⟨k, hk, hfk⟩ := List.mem_map.1 hlk
    obtain ⟨lk0, hlk0⟩ := Option.isSome_iff_exists.1 (hall k hk)
    have hfk2 : lk = (f k).getD default := hfk.symm
    rw [hlk0] at hfk2
    refine ⟨k, hk, lk0, hlk0, ?_⟩
    rw [hfk2] at hx
    exact hx
  · rintro ⟨k, hk, lk, hlk, hx⟩
    refine ⟨(f k).getD default, List.mem_map_of_mem _ hk, ?_⟩
    show x ∈ (f k).getD default
    rw [hlk]
    exact hx

theorem diffJ_rem_add_aux :
    ∀ n : Nat, ∀ v1 v2 : JValue, sizeOf v1 + sizeOf v2 ≤ n → ∀ pre p l l',
      diff_json_objects id v1 v2 pre = some l →
      diff_json_objects id v2 v1 pre = some l' →
      ((⟨DiffKind.removed, "- " ++ p ++ " (only in first)"⟩ : DiffEntry) ∈ l ↔
        (⟨DiffKind.added, "+ " ++ p ++ " (only in second)"⟩ : DiffEntry) ∈ l') := by
  intro n
  induction n using Nat.strong_induction_on with
  | _ n ih =>
    intro v1 v2 hsz
    rcases v1 with _ | b1 | n1 | s1 | a1 | o1 <;> rcases v2 with _ | b2 | n2 | s2 | a2 | o2
    case obj.obj =>
      intro pre p l l' ha hb
      have hszk : ∀ k : String,
          sizeOf (objLookup o1 k) + sizeOf (objLookup o2 k) < n := by
        intro k
        have q1 := sizeOf_objLookup o1 k
        have q2 := sizeOf_objLookup o2 k
        have e1 := JValue.obj.sizeOf_spec o1
        have e2 := JValue.obj.sizeOf_spec o2
        omega
      revert ha
      simp only [diff_json_objects, id_eq]
      rcases hm1 : ((o1.map Prod.fst).filter (fun k => (o2.map Prod.fst).contains k)).mapM
          (fun k => diff_json_objects id (objLookup o1 k) (objLookup o2 k) (pathJoin pre k))
        with _ | subs1
      · intro ha
        exact Option.noConfusion ha
      intro ha
      revert hb
      simp only [diff_json_objects, id_eq]
      rcases hm2 : ((o2.map Prod.fst).filter (fun k => (o1.map Prod.fst).contains k)).mapM
          (fun k => diff_json_objects id (objLookup o2 k) (objLookup o1 k) (pathJoin pre k))
        with _ | subs2
      · intro hb
        exact Option.noConfusion hb
      intro hb
      have ha2 := Option.some_injective _ ha
      have hb2 := Option.some_injective _ hb
      subst ha2
      subst hb2
      obtain ⟨hall1, hsubs1⟩ := optMapM_some_elim _ _ subs1 hm1
      obtain ⟨hall2, hsubs2⟩ := optMapM_some_elim _ _ subs2 hm2
      have hc12 : ∀ k : String,
          (k ∈ (o1.map Prod.fst).filter (fun k => (o2.map Prod.fst).contains k)) ↔
          (k ∈ (o2.map Prod.fst).filter (fun k => (o1.map Prod.fst).contains k)) := by
        intro k
        simp only [List.mem_filter, containsStr_iff]
        exact and_comm
      constructor
      · intro hm
        rcases List.mem_append.1 hm with hm | hm
        · rcases List.mem_append.1 hm with hm | hm
          · obtain ⟨k, hk, heq⟩ := List.mem_map.1 hm
            have heqt : "- " ++ pathJoin pre k ++ " (only in first)" =
                "- " ++ p ++ " (only in first)" := congrArg DiffEntry.text heq
            have hkp := str_sandwich_inj "- " " (only in first)" (pathJoin pre k) p heqt
            refine List.mem_append.2 (Or.inl (List.mem_append.2 (Or.inr ?_)))
            refine List.mem_map.2 ⟨k, hk, ?_⟩
            simp only [hkp]
          · obtain ⟨k, hk, heq⟩ := List.mem_map.1 hm
            have hkind : DiffKind.added = DiffKind.removed := congrArg DiffEntry.kind heq
            exact absurd hkind (by decide)
        · obtain ⟨k, hkc, lk, hflk, hmem⟩ := (mem_flatten_mapM _ _ subs1 hm1 _).1 hm
          have hk2 := (hc12 k).1 hkc
          obtain ⟨lk2, hflk2⟩ := Option.isSome_iff_exists.1 (hall2 k hk2)
          have hiff := ih (sizeOf (objLookup o1 k) + sizeOf (objLookup o2 k)) (hszk k)
            (objLookup o1 k) (objLookup o2 k) (le_refl _) (pathJoin pre k) p lk lk2
            hflk hflk2
          refine List.mem_append.2 (Or.inr ?_)
          exact (mem_flatten_mapM _ _ subs2 hm2 _).2 ⟨k, hk2, lk2, hflk2, hiff.1 hmem⟩
      · intro hm
        rcases List.mem_append.1 hm with hm | hm
        · rcases List.mem_append.1 hm with hm | hm
          · obtain ⟨k, hk, heq⟩ := List.mem_map.1 hm
            have hkind : DiffKind.removed = DiffKind.added := congrArg DiffEntry.kind heq
            exact absurd hkind (by decide)
          · obtain ⟨k, hk, heq⟩ := List.mem_map.1 hm
            have heqt : "+ " ++ pathJoin pre k ++ " (only in second)" =
                "+ " ++ p ++ " (only in second)" := congrArg DiffEntry.text heq
            have hkp := str_sandwich_inj "+ " " (only in second)" (pathJoin pre k) p heqt
            refine List.mem_append.2 (Or.inl (List.mem_append.2 (Or.inl ?_)))
            refine List.mem_map.2 ⟨k, hk, ?_⟩
            simp only [hkp]
        · obtain ⟨k, hkc2, lk2, hflk2, hmem⟩ := (mem_flatten_mapM _ _ subs2 hm2 _).1 hm
          have hk1 := (hc12 k).2 hkc2
          obtain ⟨lk, hflk⟩ := Option.isSome_iff_exists.1 (hall1 k hk1)
          have hiff := ih (sizeOf (objLookup o1 k) + sizeOf (objLookup o2 k)) (hszk k)
            (objLookup o1 k) (objLookup o2 k) (le_refl _) (pathJoin pre k) p lk lk2
            hflk hflk2
          refine List.mem_append.2 (Or.inr ?_)
          exact (mem_flatten_mapM _ _ subs1 hm1 _).2 ⟨k, hk1, lk, hflk, hiff.2 hmem⟩
    all_goals (
      intro pre p l l' ha hb
      have s1 := diffJ_shape id _ _ pre l ha (by simp [isObjB])
      have s2 := diffJ_shape id _ _ pre l' hb (by simp [isObjB])
      constructor
      · intro hm
        exfalso
        rcases s1 with rfl | ⟨s, rfl⟩ <;> simp at hm
      · intro hm
        exfalso
        rcases s2 with rfl | ⟨s, rfl⟩ <;> simp at hm)

/-- Claim C6: for all JSON values, iteration orders and any path prefix,
`diff(A, B)` reports key `x` as removed at path `p` iff `diff(B, A)` reports
`x` as added at the same path `p`. -/
theorem c6_diff_symmetry (ord1 ord2 : List String → List String)
    (h1 : ∀ l, (ord1 l).Perm l) (h2 : ∀ l, (ord2 l).Perm l)
    (v1 v2 : JValue) (pre p : String) (l l2 : List DiffEntry)
    (ha : diff_json_objects ord1 v1 v2 pre = some l)
    (hb : diff_json_objects ord2 v2 v1 pre = some l2) :
    ((⟨DiffKind.removed, "- " ++ p ++ " (only in first)"⟩ : DiffEntry) ∈ l ↔
      (⟨DiffKind.added, "+ " ++ p ++ " (only in second)"⟩ : DiffEntry) ∈ l2) := by
  have hid : ∀ q : List String, (id q : List String).Perm q := fun q => List.Perm.refl q
  rcases hia : diff_json_objects id v1 v2 pre with _ | l0
  · have hno := (diffJ_perm_aux ord1 id h1 hid (sizeOf v1) v1 v2 (le_refl _) pre).1.2 hia
    rw [ha] at hno
    exact Option.noConfusion hno
  rcases hib : diff_json_objects id v2 v1 pre with _ | l0'
  · have hno := (diffJ_perm_aux ord2 id h2 hid (sizeOf v2) v2 v1 (le_refl _) pre).1.2 hib
    rw [hb] at hno
    exact Option.noConfusion hno
  have hp1 : l.Perm l0 :=
    (diffJ_perm_aux ord1 id h1 hid (sizeOf v1) v1 v2 (le_refl _) pre).2 l l0 ha hia
  have hp2 : l2.Perm l0' :=
    (diffJ_perm_aux ord2 id h2 hid (sizeOf v2) v2 v1 (le_refl _) pre).2 l2 l0' hb hib
  rw [hp1.mem_iff, hp2.mem_iff]
  exact diffJ_rem_add_aux (sizeOf v1 + sizeOf v2) v1 v2 (le_refl _) pre p l0 l0' hia hib

/-- Witness for c6_diff_symmetry: one object with key `a` diffed against an
empty object, in both directions. -/
theorem c6_diff_symmetry_witness :
    ((⟨DiffKind.removed, "- " ++ "a" ++ " (only in first)"⟩ : DiffEntry) ∈
        [(⟨DiffKind.removed, "- a (only in first)"⟩ : DiffEntry)] ↔
      (⟨DiffKind.added, "+ " ++ "a" ++ " (only in second)"⟩ : DiffEntry) ∈
        [(⟨DiffKind.added, "+ a (only in second)"⟩ : DiffEntry)]) :=
  c6_diff_symmetry id id (fun q => List.Perm.refl q) (fun q => List.Perm.refl q)
    (JValue.obj [("a", JValue.null)]) (JValue.obj []) "" "a" _ _
    (by simp [diff_json_objects, List.mapM, List.mapM.loop, pathJoin])
    (by simp [diff_json_objects, List.mapM, List.mapM.loop, pathJoin])

/-- Claim C7: for every JSON value `A` and every path prefix, `diff(A, A)`
yields an empty list of diff entries, for any valid hash-iteration order. -/
theorem c7_diff_reflexive (ord : List String → List String) (h : ∀ l, (ord l).Perm l)
    (v : JValue) (pre : String) : diff_json_objects ord v v pre = some [] :=
  diffJ_self_aux ord h (sizeOf v) v (le_refl _) pre

/-- Witness for c7_diff_reflexive on a concrete nested object. -/
theorem c7_diff_reflexive_witness :
    diff_json_objects id
      (JValue.obj [("a", JValue.num 1), ("b", JValue.obj [("c", JValue.str "x")])])
      (JValue.obj [("a", JValue.num 1), ("b", JValue.obj [("c", JValue.str "x")])])
      "" = some [] :=
  c7_diff_reflexive id (fun l => List.Perm.refl l)
    (JValue.obj [("a", JValue.num 1), ("b", JValue.obj [("c", JValue.str "x")])]) ""

theorem byteTake_spec : ∀ (cs : List Char) (n : Nat) (pfx : List Char),
    byteTake cs n = some pfx → pfx.isPrefixOf cs = true ∧ utf8Len pfx = n := by
  intro cs
  induction cs with
  | nil =>
    intro n pfx h
    cases n with
    | zero =>
      simp only [byteTake, Option.some.injEq] at h
      subst h
      exact ⟨rfl, rfl⟩
    | succ m => exact Option.noConfusion h
  | cons c rest ih =>
    intro n pfx h
    cases n with
    | zero =>
      simp only [byteTake, Option.some.injEq] at h
      subst h
      exact ⟨rfl, rfl⟩
    | succ m =>
      simp only [byteTake] at h
      split at h
      case isTrue hle =>
        rcases hbt : byteTake rest (m + 1 - c.utf8Size) with _ | pfx0
        · rw [hbt] at h
          exact Option.noConfusion h
        · rw [hbt] at h
          have h2 : c :: pfx0 = pfx := Option.some_injective _ h
          subst h2
          obtain ⟨hp, hlen⟩ := ih (m + 1 - c.utf8Size) pfx0 hbt
          constructor
          · simp [List.isPrefixOf, hp]
          · simp only [utf8Len, List.map_cons, List.sum_cons] at hlen ⊢
            omega
      case isFalse hle => exact Option.noConfusion h

/-- Claim C8 (counterexample): the truncation thresholds of `format_value`
count bytes, not characters — an eleven-character string of three-byte
characters is at most 30 characters long yet is not rendered in full, and a
string whose 27th byte falls inside a character makes the byte slice panic,
which a changed-value diff then surfaces. -/
theorem c8_counterexample :
    ((String.replicate 11 '€').data.length ≤ MAX_VALUE_DISPLAY_LEN ∧
      format_value (JValue.str (String.replicate 11 '€')) ≠
        some (rustDebugStr (String.replicate 11 '€'))) ∧
    format_value (JValue.str (String.replicate 16 'é')) = none ∧
    diff_json_objects id (JValue.str (String.replicate 16 'é')) JValue.null "" = none := by
  refine ⟨⟨by decide, by decide⟩, by decide, ?_⟩
  simp only [diff_json_objects]
  decide

/-- Claim C8 (amended): `format_value` renders a string of at most 30 UTF-8
bytes in full (in Debug form); a string of more than 30 bytes is truncated to
the characters spanning its first 27 bytes plus an ellipsis when byte 27 is a
character boundary, and panics otherwise; arrays render as their item count
and objects as their key count. -/
theorem c8_amended (s : String) :
    (utf8Len s.data ≤ MAX_VALUE_DISPLAY_LEN →
      format_value (JValue.str s) = some (rustDebugStr s)) ∧
    (utf8Len s.data > MAX_VALUE_DISPLAY_LEN →
      (∀ pfx, byteTake s.data VALUE_PREVIEW_LEN = some pfx →
        format_value (JValue.str s) = some ("\"" ++ String.mk pfx ++ "...\"") ∧
        pfx.isPrefixOf s.data = true ∧ utf8Len pfx = VALUE_PREVIEW_LEN) ∧
      (byteTake s.data VALUE_PREVIEW_LEN = none →
        format_value (JValue.str s) = none)) ∧
    (∀ a : List JValue,
      format_value (JValue.arr a) = some ("[" ++ toString a.length ++ " items]")) ∧
    (∀ o : List (String × JValue),
      format_value (JValue.obj o) = some ("\x7b" ++ toString o.length ++ " keys\x7d")) := by
  refine ⟨?_, ?_, fun a => rfl, fun o => rfl⟩
  · intro hle
    simp only [format_value]
    rw [if_neg (not_lt.2 hle)]
  · intro hgt
    constructor
    · intro pfx hbt
      refine ⟨?_, (byteTake_spec s.data VALUE_PREVIEW_LEN pfx hbt).1,
        (byteTake_spec s.data VALUE_PREVIEW_LEN pfx hbt).2⟩
      simp only [format_value]
      rw [if_pos hgt, hbt]
    · intro hbt
      simp only [format_value]
      rw [if_pos hgt, hbt]

/-- Witness for c8_amended: a short ASCII string renders in full; a 32-byte
string of two-byte characters panics. -/
theorem c8_amended_witness :
    format_value (JValue.str "hello") = some (rustDebugStr "hello") ∧
    format_value (JValue.str (String.replicate 16 'é')) = none :=
  ⟨(c8_amended "hello").1 (by decide),
    ((c8_amended (String.replicate 16 'é')).2.1 (by decide)).2 (by decide)⟩

theorem readRepoPush (source : PluginSource) (ps : List RepoPlugin)
    (acc : List PluginInfo) :
    ps.foldl
      (fun acc p =>
        if p.plugin_status &&& INSTALLED_BIT ≠ 0 then acc ++ [toInfo source p] else acc)
      acc =
    acc ++ (ps.filter (fun p => p.plugin_status &&& INSTALLED_BIT != 0)).map
      (toInfo source) := by
  induction ps generalizing acc with
  | nil => simp
  | cons q qs ih =>
    simp only [List.foldl_cons, List.filter_cons]
    by_cases h : q.plugin_status &&& INSTALLED_BIT ≠ 0
    · rw [if_pos h, ih]
      have hb : (q.plugin_status &&& INSTALLED_BIT != 0) = true := by
        simpa using h
      rw [hb]
      simp
    · rw [if_neg h, ih]
      have hb : (q.plugin_status &&& INSTALLED_BIT != 0) = false := by
        simp only [bne_eq_false_iff_eq]
        simpa using h
      rw [hb]
      simp

theorem readRepoLoop_pos (repos : List Repository) :
    ∀ idx : Nat, idx ≠ 0 →
    readRepoLoop idx repos =
      (repos.map (fun repo => (repo.plugins.filter
        (fun p => p.plugin_status &&& INSTALLED_BIT != 0)).map
          (toInfo PluginSource.community))).flatten := by
  induction repos with
  | nil =>
    intro idx h
    rfl
  | cons r rest ih =>
    intro idx h
    simp only [readRepoLoop, if_neg h, List.map_cons, List.flatten_cons]
    rw [readRepoPush, ih (idx + 1) (by omega)]
    simp

/-- Claim C5: a repository plugin record is included in the inventory iff bit
value 2 of its status bitmask is set — the inventory is exactly the map over
the status-bit filter of each repository (Official for the first repository,
Community for the rest), the filter condition coincides with `testBit 1` (so
inclusion depends only on that one bit), a record with status 3 is included
and a record with status 1 is excluded. -/
theorem c5_installed_bit :
    (∀ repo rest, read_repo_plugins (repo :: rest) =
        (repo.plugins.filter (fun p => p.plugin_status &&& INSTALLED_BIT != 0)).map
          (toInfo PluginSource.official) ++
        (rest.map (fun repo2 => (repo2.plugins.filter
          (fun p => p.plugin_status &&& INSTALLED_BIT != 0)).map
            (toInfo PluginSource.community))).flatten) ∧
    (∀ p : RepoPlugin, (p.plugin_status &&& INSTALLED_BIT != 0) = p.plugin_status.testBit 1) ∧
    (∀ nm ver au pth, read_repo_plugins [⟨[⟨nm, ver, au, pth, 3⟩]⟩] =
        [toInfo PluginSource.official ⟨nm, ver, au, pth, 3⟩]) ∧
    (∀ nm ver au pth, read_repo_plugins [⟨[⟨nm, ver, au, pth, 1⟩]⟩] = []) := by
  refine ⟨?_, ?_,
    fun nm ver au pth => by simp [read_repo_plugins, readRepoLoop, INSTALLED_BIT],
    fun nm ver au pth => by simp [read_repo_plugins, readRepoLoop, INSTALLED_BIT]⟩
  · intro repo rest
    show readRepoLoop 0 (repo :: rest) = _
    simp only [readRepoLoop, if_pos rfl]
    rw [readRepoPush, readRepoLoop_pos rest 1 (by omega)]
    simp
  · intro p
    have h2 := Nat.and_two_pow p.plugin_status 1
    simp only [pow_one] at h2
    cases hb : p.plugin_status.testBit 1
    · rw [hb] at h2
      simp only [Bool.toNat_false, zero_mul] at h2
      simp [INSTALLED_BIT, h2]
    · rw [hb] at h2
      simp only [Bool.toNat_true, one_mul] at h2
      simp [INSTALLED_BIT, h2]

end BnLoader
